import Mathlib

/-!
# smallsh: a verification development

A shallow embedding of `smallsh.c` (the prompt loop, the line preprocessor,
the command parser, the redirection handling of the children and the
background registry) together with theorems about it.

Conventions of the embedding.

* A C string is the list of its characters before the terminating NUL.
* A `char*` that may be `NULL` is an `Option (List Char)`.
* A C `int` is an `Int`; the division of C (truncation towards zero) is `Int.tdiv`.
* A fixed-size array is a total map from indices together with its capacity;
  every access outside the capacity makes the operation fail (`none`), and so
  does every other step with undefined behaviour (a `NULL` handed to `strlen`).
* What the operating system decides (the process id, the outcome of `open`,
  `fork` and `waitpid`) is a parameter of the operation.
-/

namespace Smallsh

/-! ## The line preprocessor: `replace_PID` -/

/-- Bytes of `command_line` in `struct command` and of `temp` in `replace_PID`. -/
def LINE_BYTES : Nat := 2048

/-- Bytes of the array `pid` in `replace_PID`. -/
def PID_BYTES : Nat := 10

/-- The text written by `sprintf(pid, "%d", getpid())` for a process id. -/
def pidText (p : Nat) : List Char := Nat.toDigits 10 p

/-- The call `strstr(s, "$$")` on the string `s`: the offset of the first
occurrence of two consecutive dollar signs, or `none` (the `NULL` result). -/
def strstrDollars : List Char → Option Nat
  | [] => none
  | c :: rest =>
    if c = '$' ∧ rest.head? = some '$' then some 0
    else (strstrDollars rest).map (· + 1)

/-- The loop of `replace_PID`: `command` is the content of the buffer and `ptr`
the offset at which the next search starts. One round copies the text before
the match into `temp`, appends the pid and the text after the match, copies
`temp` back and moves `ptr` behind the inserted pid. The round fails when the
new text with its terminator does not fit `temp`. -/
def replacePIDLoop (pid : List Char) : Nat → List Char → Nat → Option (List Char)
  | 0, _, _ => none
  | fuel + 1, command, ptr =>
    match strstrDollars (command.drop ptr) with
    | none => some command
    | some k =>
      let found := ptr + k
      let temp := command.take found ++ pid ++ command.drop (found + 2)
      if temp.length + 1 ≤ LINE_BYTES then
        replacePIDLoop pid fuel temp (found + pid.length)
      else none

/-- The function `replace_PID(command)` in a process whose id is `p`. It fails
when the decimal form of `p` overflows `pid` or an expansion overflows
`temp`. Every round consumes a match, so `command.length + 1` rounds are
enough for every input. -/
def replace_PID (p : Nat) (command : List Char) : Option (List Char) :=
  if (pidText p).length + 1 ≤ PID_BYTES then
    replacePIDLoop (pidText p) (command.length + 1) command 0
  else none

/-- The expansion the specification describes: scanning left to right, every
occurrence of two dollar signs that does not overlap an earlier one becomes the
text `pid`; every other character is kept. -/
def expandDollars (pid : List Char) : List Char → List Char
  | [] => []
  | [c] => [c]
  | c :: d :: rest =>
    if c = '$' ∧ d = '$' then pid ++ expandDollars pid rest
    else c :: expandDollars pid (d :: rest)

/-! ## The command structure and the parser: `populate_command` -/

/-- Slots of the array `args` in `struct command`. -/
def MAX_ARGS : Int := 512

/-- The `struct command` of `smallsh.h`: the line buffer, the argument
count and the argument slots (`none` is `NULL`). -/
structure command where
  command_line : List Char
  num_args : Int
  args : Int → Option (List Char)

/-- The structure as `main` sets it up before `prompt` reads a line into it. -/
def freshCommand (line : List Char) : command :=
  { command_line := line, num_args := 0, args := fun _ => none }

/-- The arguments in the slots `0 .. num_args - 1`, in order. -/
def argv (c : command) : List (Option (List Char)) :=
  (List.range c.num_args.toNat).map (fun (i : Nat) => c.args (i : Int))

/-- The call `strtok_r(s, " ", &saveptr)` on the rest `s` of the line: leading
spaces are skipped; if nothing is left the result is `NULL` and `saveptr` is at
the end; otherwise the token runs up to the next space (which is overwritten by
a terminator, `saveptr` moving behind it) or up to the end of the string. The
result is the token and the string `saveptr` points to. -/
def strtok_r (s : List Char) : Option (List Char) × List Char :=
  match s.dropWhile (· == ' ') with
  | [] => (none, [])
  | c :: s1 =>
    match (c :: s1).dropWhile (· != ' ') with
    | [] => (some ((c :: s1).takeWhile (· != ' ')), [])
    | _ :: r => (some ((c :: s1).takeWhile (· != ' ')), r)

/-- The `while(strcmp(saveptr, "\0"))` loop of `populate_command`: as long as
`saveptr` is not at the end, the next token goes to `args[num_args]` and
`num_args` grows. It fails where the C code has no defined behaviour: `strlen`
of a `NULL` token, or a slot outside the array. -/
def populateLoop : Nat → command → List Char → Option command
  | 0, _, _ => none
  | fuel + 1, input, saveptr =>
    if saveptr = [] then some input
    else
      match strtok_r saveptr with
      | (none, _) => none
      | (some token, saveptr2) =>
        if 0 ≤ input.num_args ∧ input.num_args < MAX_ARGS then
          populateLoop fuel
            { input with
              args := Function.update input.args input.num_args (some token)
              num_args := input.num_args + 1 }
            saveptr2
        else none

/-- The last statements of `populate_command`: the final character of the last
argument is overwritten by a terminator and, when `SIGTSTPcount` is odd and the
last argument now is `&`, that argument is freed, its slot set to `NULL` and
`num_args` decremented. -/
def populateFinish (SIGTSTPcount : Int) (input : command) : Option command :=
  if 0 ≤ input.num_args - 1 ∧ input.num_args - 1 < MAX_ARGS then
    match input.args (input.num_args - 1) with
    | none => none
    | some last =>
      if last = [] then none
      else
        let input2 : command :=
          { input with
            args := Function.update input.args (input.num_args - 1) (some last.dropLast) }
        if SIGTSTPcount.tmod 2 ≠ 0 then
          if last.dropLast = ['&'] then
            some { input2 with
                   args := Function.update input2.args (input2.num_args - 1) none
                   num_args := input2.num_args - 1 }
          else some input2
        else some input2
  else none

/-- The function `populate_command(input)` when the global `SIGTSTPcount` has
the given value. A `NULL` first token is replaced by the string of one space.
Every round of the loop shortens what `saveptr` points to, so its length plus
one bounds the number of rounds. The terminators `strtok_r` writes into
`command_line` are not recorded: every token is copied at once and the buffer
is not read again before the next `memset`. -/
def populate_command (SIGTSTPcount : Int) (input : command) : Option command :=
  let first := strtok_r input.command_line
  let token := first.1.getD [' ']
  let input1 : command :=
    { input with
      args := Function.update input.args 0 (some token)
      num_args := input.num_args + 1 }
  match populateLoop (first.2.length + 1) input1 first.2 with
  | none => none
  | some input2 => populateFinish SIGTSTPcount input2

/-- The maximal runs of characters that are not separators, in order. -/
def splitRuns (sep : Char → Bool) : List Char → List (List Char)
  | [] => []
  | c :: rest =>
    if sep c then splitRuns sep rest
    else if (rest.head?.map sep).getD true then [c] :: splitRuns sep rest
    else
      match splitRuns sep rest with
      | [] => [[c]]
      | w :: ws => (c :: w) :: ws

/-- The white-space characters of C (`isspace`). -/
def isWhitespace (c : Char) : Bool :=
  c == ' ' || c == '\t' || c == '\n' || c == '\x0b' || c == '\x0c' || c == '\r'

/-- The words of a line as the specification describes them: the maximal runs
of characters that are not white space. -/
def wordsOf (line : List Char) : List (List Char) := splitRuns isWhitespace line

/-- The maximal runs of characters other than the space character. -/
def spaceWords (s : List Char) : List (List Char) := splitRuns (· == ' ') s

/-- The structure after `args[num_args]` received a token and `num_args` grew. -/
def pushArg (c : command) (tok : List Char) : command :=
  { c with args := Function.update c.args c.num_args (some tok), num_args := c.num_args + 1 }

/-- The structure whose slots `0 .. slots.length - 1` hold `slots`, whose other
slots are those of `input`, and whose count is `n`. -/
def setArgs (input : command) (slots : List (Option (List Char))) (n : Int) : command :=
  { command_line := input.command_line
    num_args := n
    args := fun i =>
      if 0 ≤ i ∧ i < (slots.length : Int) then (slots[i.toNat]?).getD none else input.args i }

/-! ## Signals, status reports, the children and the registry -/

/-- The global `SIGTSTPcount` together with what the handlers wrote to the
standard output. -/
structure SignalState where
  SIGTSTPcount : Int
  written : List String

/-- The state at start-up: `int SIGTSTPcount = 0`. -/
def initialSignalState : SignalState := { SIGTSTPcount := 0, written := [] }

/-- The handler `catchSIGTSTP`: the counter grows, then the message of the
new parity is written (31 bytes of the 30-character exit message, so its
terminator too). -/
def catchSIGTSTP (s : SignalState) : SignalState :=
  let count := s.SIGTSTPcount + 1
  { SIGTSTPcount := count
    written := s.written ++
      [if count.tmod 2 = 0 then "\nExiting foreground-only mode\n\x00"
       else "\nEntering foreground-only mode (& is now ignored)\n"] }

/-- The function `reset_command`: the slots below `num_args` are freed and set
to `NULL`, then the count is zero. A count above the capacity would free slots
outside the array. -/
def reset_command (input : command) : Option command :=
  if input.num_args ≤ MAX_ARGS then
    some { input with
           args := fun i => if 0 ≤ i ∧ i < input.num_args then none else input.args i
           num_args := 0 }
  else none

/-- The function `status_execute`: what it prints. -/
def status_execute (last_status last_cmd : Int) : List String :=
  if last_cmd ≠ 0 then
    if last_status > 1 then ["terminated by signal " ++ toString last_status ++ "\n"]
    else ["exit value " ++ toString last_status ++ "\n"]
  else []

/-- The function `file_directory_error`; a `NULL` name prints as `(null)`. -/
def file_directory_error (name : Option (List Char)) : String :=
  "bash: " ++ String.mk (name.getD "(null)".toList) ++ ": No such file or directory\n"

/-- What a descriptor of the child refers to. -/
inductive Stream where
  | inherited
  | file (path : List Char)
  | devnull
  deriving DecidableEq, Repr

/-- The system calls of a child: whether `open` succeeds for a path opened for
writing with creation and truncation (`>`), for reading (`<` and `/dev/null`),
for writing only (`/dev/null`), and whether `dup2` onto descriptor 0 or 1
succeeds. -/
structure ChildOS where
  open_create : List Char → Bool
  open_read : List Char → Bool
  open_write : List Char → Bool
  dup2 : Nat → Bool

/-- The locals of a child while it handles redirections: the structure, the
bindings of descriptors 0 and 1 (`input_fd` and `output_fd` are `-1` exactly
while the binding is `inherited`) and the flag `redirection`. -/
structure ChildState where
  input : command
  stdin : Stream
  stdout : Stream
  redirection : Bool

/-- How the code of a child ends: with `exit(code)` after printing, or with
the call of `execvp(args[0], args)`. -/
inductive ChildOutcome where
  | exited (code : Int) (printed : List String)
  | exec (st : ChildState)

/-- The loop `while (input->args[i] != NULL)` of the children, which binds
descriptor 1 at every `>` and descriptor 0 at every `<` found at an index other
than 0 to the file named by the next slot. The result is `none` where a slot
outside the array is read. -/
def redirectScan (os : ChildOS) : Nat → Int → ChildState → Option ChildOutcome
  | 0, _, _ => none
  | fuel + 1, i, st =>
    if 0 ≤ i ∧ i < MAX_ARGS then
      match st.input.args i with
      | none => some (ChildOutcome.exec st)
      | some arg =>
        -- first `if`: output redirection
        let afterOut : Option (Option ChildState × List String) :=
          if arg = ['>'] ∧ i ≠ 0 then
            if i + 1 < MAX_ARGS then
              match st.input.args (i + 1) with
              | none => some (none, [file_directory_error none])
              | some path =>
                if os.open_create path then
                  if os.dup2 1 then
                    some (some { st with stdout := Stream.file path, redirection := true }, [])
                  else some (none, ["Failed to redirect output\n"])
                else some (none, [file_directory_error (some path)])
            else none
          else some (some st, [])
        match afterOut with
        | none => none
        | some (none, printed) => some (ChildOutcome.exited 1 printed)
        | some (some st1, _) =>
          -- second `if`: input redirection
          if arg = ['<'] ∧ i ≠ 0 then
            if i + 1 < MAX_ARGS then
              match st1.input.args (i + 1) with
              | none => some (ChildOutcome.exited 1 [file_directory_error none])
              | some path =>
                if os.open_read path then
                  if os.dup2 0 then
                    redirectScan os fuel (i + 1)
                      { st1 with stdin := Stream.file path, redirection := true }
                  else some (ChildOutcome.exited 1 ["Failed to redirect input\n"])
                else some (ChildOutcome.exited 1 [file_directory_error (some path)])
            else none
          else redirectScan os fuel (i + 1) st1
    else none

/-- First loop of `remove_redirection`: the index of the first slot holding
`>` or `<`, searched from index 0. A `NULL` slot on the way is handed to
`strcmp`, which has no defined behaviour. -/
def removeFind (input : command) : Nat → Int → Option Int
  | 0, _ => none
  | fuel + 1, i =>
    if 0 ≤ i ∧ i < MAX_ARGS then
      match input.args i with
      | none => none
      | some arg =>
        if arg ≠ ['>'] ∧ arg ≠ ['<'] then removeFind input fuel (i + 1) else some i
    else none

/-- Second loop of `remove_redirection`: from index `i` on, every slot up to
the first `NULL` is freed and set to `NULL` and `num_args` is decremented. -/
def removeClear : Nat → Int → command → Option command
  | 0, _, _ => none
  | fuel + 1, i, input =>
    if 0 ≤ i ∧ i < MAX_ARGS then
      match input.args i with
      | none => some input
      | some _ =>
        removeClear fuel (i + 1)
          { input with args := Function.update input.args i none
                       num_args := input.num_args - 1 }
    else none

/-- The function `remove_redirection`. Both loops advance one slot per round
and fail beyond slot 511, so 513 rounds are enough. -/
def remove_redirection (input : command) : Option command :=
  match removeFind input 513 0 with
  | none => none
  | some i => removeClear 513 i input

/-- The child of `foreground_command` up to its call of `execvp`: the scan for
redirections from index 0 on with nothing bound, then `remove_redirection`
when a redirection happened. The 513 rounds cover every slot. -/
def foreground_child (os : ChildOS) (input : command) : Option ChildOutcome :=
  match redirectScan os 513 0
      { input := input, stdin := Stream.inherited, stdout := Stream.inherited,
        redirection := false } with
  | none => none
  | some (ChildOutcome.exited code printed) => some (ChildOutcome.exited code printed)
  | some (ChildOutcome.exec st) =>
    if st.redirection then
      match remove_redirection st.input with
      | none => none
      | some input2 => some (ChildOutcome.exec { st with input := input2 })
    else some (ChildOutcome.exec st)

/-- The branch of the child of `background_command` taken when no redirection
happened: a descriptor still unbound is bound to `/dev/null`. -/
def backgroundDefaults (os : ChildOS) (st : ChildState) : ChildOutcome :=
  let afterIn : Option ChildState × List String :=
    if st.stdin = Stream.inherited then
      if os.open_read "/dev/null".toList then
        if os.dup2 0 then (some { st with stdin := Stream.devnull }, [])
        else (none, ["Failed to redirect input\n"])
      else (none, [file_directory_error (some "/dev/null".toList)])
    else (some st, [])
  match afterIn with
  | (none, printed) => ChildOutcome.exited 1 printed
  | (some st1, _) =>
    if st1.stdout = Stream.inherited then
      if os.open_write "/dev/null".toList then
        if os.dup2 1 then ChildOutcome.exec { st1 with stdout := Stream.devnull }
        else ChildOutcome.exited 1 ["Failed to redirect input\n"]
      else ChildOutcome.exited 1 [file_directory_error (some "/dev/null".toList)]
    else ChildOutcome.exec st1

/-- The child of `background_command` up to its call of `execvp`, on the
structure it inherits (the trailing `&` is already removed before the fork). -/
def background_child (os : ChildOS) (input : command) : Option ChildOutcome :=
  match redirectScan os 513 0
      { input := input, stdin := Stream.inherited, stdout := Stream.inherited,
        redirection := false } with
  | none => none
  | some (ChildOutcome.exited code printed) => some (ChildOutcome.exited code printed)
  | some (ChildOutcome.exec st) =>
    if st.redirection then
      match remove_redirection st.input with
      | none => none
      | some input2 => some (ChildOutcome.exec { st with input := input2 })
    else some (backgroundDefaults os st)

/-- Slots of the array `background_PIDS` in `prompt`. -/
def MAX_BACKGROUND : Int := 30

/-- The registry of `prompt`: the array `background_PIDS` and the count
`num_background_proc`. -/
structure Registry where
  background_PIDS : Int → Int
  num_background_proc : Int

/-- The process ids in the slots `0 .. num_background_proc - 1`, in order. -/
def Registry.tracked (r : Registry) : List Int :=
  (List.range r.num_background_proc.toNat).map (fun (k : Nat) => r.background_PIDS (k : Int))

/-- The result of code that can reach `exit`: it returns a value, or the
process exits with a code. -/
inductive Outcome (α : Type) where
  | returned (a : α)
  | exits (code : Int)

/-- What `execute` leaves behind and returns in the interpreter process; the
flag tells whether `background_command` was the function called. -/
structure Executed where
  input : command
  reg : Registry
  status : Int
  printed : List String
  background : Bool

/-- The function `foreground_command` in the interpreter process. `spawnPid` is
what `fork` returned there and `waited` the raw status stored by the blocking
`waitpid` (`none` when it stores nothing, leaving the initial `-5`). -/
def foreground_command (input : command) (reg : Registry) (spawnPid : Int)
    (waited : Option Int) : Outcome Executed :=
  if spawnPid = -1 then Outcome.exits 1
  else
    let raw := waited.getD (-5)
    let childExitStatus := if raw ≥ 256 then raw.tdiv 256 else raw
    Outcome.returned
      { input := input
        reg := reg
        status := childExitStatus
        printed := if childExitStatus > 1 then status_execute childExitStatus 1 else []
        background := false }

/-- The function `background_command` in the interpreter process: the last
argument (the `&`) is freed and its slot cleared, then after the fork the pid
is printed and appended to the registry. The value returned is the initial
`childExitStatus` of `-5` divided by 256. -/
def background_command (input : command) (reg : Registry) (spawnPid : Int) :
    Option (Outcome Executed) :=
  if 0 ≤ input.num_args - 1 ∧ input.num_args - 1 < MAX_ARGS then
    let input2 : command :=
      { input with args := Function.update input.args (input.num_args - 1) none
                   num_args := input.num_args - 1 }
    if spawnPid = -1 then some (Outcome.exits 1)
    else if 0 ≤ reg.num_background_proc ∧ reg.num_background_proc < MAX_BACKGROUND then
      some (Outcome.returned
        { input := input2
          reg :=
            { background_PIDS :=
                Function.update reg.background_PIDS reg.num_background_proc spawnPid
              num_background_proc := reg.num_background_proc + 1 }
          status := (-5 : Int).tdiv 256
          printed := ["background process pid is " ++ toString spawnPid ++ "\n"]
          background := true })
    else none
  else none

/-- The function `execute`: a last argument equal to `&` selects
`background_command`, anything else `foreground_command`. -/
def execute (input : command) (reg : Registry) (spawnPid : Int) (waited : Option Int) :
    Option (Outcome Executed) :=
  if 0 ≤ input.num_args - 1 ∧ input.num_args - 1 < MAX_ARGS then
    match input.args (input.num_args - 1) with
    | none => none
    | some last =>
      if last = ['&'] then background_command input reg spawnPid
      else some (foreground_command input reg spawnPid waited)
  else none

/-- The inner loop `for(int j = i; j < *num_background_proc; j++)` of
`check_background_processes`, `rounds` rounds from `j` on: slot `j` receives
the content of slot `j + 1`. -/
def shiftDown : Nat → Int → (Int → Int) → Option (Int → Int)
  | 0, _, pids => some pids
  | rounds + 1, j, pids =>
    if 0 ≤ j ∧ j + 1 < MAX_BACKGROUND then
      shiftDown rounds (j + 1) (Function.update pids j (pids (j + 1)))
    else none

/-- The line `check_background_processes` prints for a pid and the status
stored by `waitpid`. -/
def backgroundReport (pid status : Int) : String :=
  if status > 1 then
    "background pid " ++ toString pid ++ " is done: terminated by signal "
      ++ toString status ++ "\n"
  else
    "background pid " ++ toString pid ++ " is done: exit value " ++ toString status ++ "\n"

/-- The registry during `check_background_processes`, with what was printed
and the calls of `waitpid` made so far (the pid and what the call found). -/
structure Polled where
  reg : Registry
  printed : List String
  waits : List (Int × Option Int)

/-- The outer loop of `check_background_processes` from index `i` on.
`nohang pid` is what `waitpid(pid, &childExitStatus, WNOHANG)` finds for a
child of the interpreter that was not waited for yet: `none` if it has not
changed state (the call returns 0), the raw status stored otherwise. -/
def checkLoop (nohang : Int → Option Int) : Nat → Int → Polled → Option Polled
  | 0, _, _ => none
  | fuel + 1, i, p =>
    if i < p.reg.num_background_proc then
      if 0 ≤ i ∧ i < MAX_BACKGROUND then
        let pid := p.reg.background_PIDS i
        match nohang pid with
        | none =>
          checkLoop nohang fuel (i + 1) { p with waits := p.waits ++ [(pid, none)] }
        | some status =>
          match shiftDown (p.reg.num_background_proc - i).toNat i p.reg.background_PIDS with
          | none => none
          | some pids =>
            checkLoop nohang fuel (i + 1)
              { reg := { background_PIDS := pids
                         num_background_proc := p.reg.num_background_proc - 1 }
                printed := p.printed ++ [backgroundReport pid status]
                waits := p.waits ++ [(pid, some status)] }
      else none
    else some p

/-- The function `check_background_processes`. The index grows in every round
and the count never does, so the count plus one bounds the rounds. -/
def check_background_processes (nohang : Int → Option Int) (reg : Registry) : Option Polled :=
  checkLoop nohang (reg.num_background_proc.toNat + 1) 0
    { reg := reg, printed := [], waits := [] }

/-- What the operating system and the user supply during one round of the
loop of `prompt`. -/
structure Env where
  /-- The non-blocking `waitpid` on a tracked pid at the start of the round. -/
  nohang : Int → Option Int
  /-- The deliveries of `SIGTSTP` while `fgets` waits for the line. -/
  signals : Nat
  /-- What `fgets` leaves in `command_line` (empty at the end of the input). -/
  line : List Char
  /-- The result of `getpid`. -/
  getpid : Nat
  /-- The result of `getenv("HOME")`. -/
  home : Option (List Char)
  /-- Whether `chdir` to a path succeeds. -/
  chdir : Option (List Char) → Bool
  /-- What `fork` returns in the interpreter. -/
  fork : Int
  /-- The raw status stored by the blocking `waitpid` on a foreground child. -/
  waited : Option Int

/-- The function `cd_execute`: the structure afterwards and what is printed. -/
def cd_execute (env : Env) (input : command) : Option (command × List String) :=
  let goHome : List String := if env.chdir env.home then [] else [file_directory_error env.home]
  if input.num_args = 1 then some (input, goHome)
  else if input.num_args ≥ 2 then
    match input.args 1 with
    | none => none
    | some dir =>
      if dir = ['&'] then
        some ({ input with args := Function.update input.args 1 none
                           num_args := input.num_args - 1 }, goHome)
      else
        some (input,
          if env.chdir (some dir) then [] else [file_directory_error (some dir)])
  else some (input, [])

/-- The locals of `prompt` together with the structure, the signal state and
the text printed so far. -/
structure Shell where
  input : command
  last_status : Int
  last_cmd : Int
  reg : Registry
  sig : SignalState
  out : List String

/-- The state in which `prompt` enters its loop, for the registry array as it
lies in memory. -/
def initialShell (pids : Int → Int) : Shell :=
  { input := freshCommand []
    last_status := 0
    last_cmd := -1
    reg := { background_PIDS := pids, num_background_proc := 0 }
    sig := initialSignalState
    out := [] }

/-- How one round of the loop of `prompt` ends. -/
inductive Round where
  | next (s : Shell)
  | left (s : Shell)
  | exits (code : Int)

/-- The dispatch of one parsed line in `prompt`, up to the final `fflush`. -/
def dispatch (env : Env) (s : Shell) : Option Round :=
  match s.input.args 0 with
  | none => none
  | some name =>
    if name = "exit".toList then
      match reset_command s.input with
      | none => none
      | some input2 => some (Round.left { s with input := input2 })
    else if name = "cd".toList then
      match cd_execute env s.input with
      | none => none
      | some (input2, printed) =>
        some (Round.next { s with input := input2, out := s.out ++ printed, last_cmd := 0 })
    else if name = "status".toList then
      some (Round.next
        { s with out := s.out ++ status_execute s.last_status s.last_cmd, last_cmd := 0 })
    else if name.head? ≠ some '#' ∧ name ≠ [] then
      match execute s.input s.reg env.fork env.waited with
      | none => none
      | some (Outcome.exits code) => some (Round.exits code)
      | some (Outcome.returned r) =>
        some (Round.next
          { s with input := r.input, reg := r.reg, out := s.out ++ r.printed
                   last_status := r.status, last_cmd := 1 })
    else some (Round.next s)

/-- One round of the loop of `prompt`: the registry is polled, the prompt is
printed, the line is read and preprocessed when it contains `$$`, parsed and
dispatched, and the structure is reset unless the loop was left. -/
def prompt_round (env : Env) (s : Shell) : Option Round :=
  match check_background_processes env.nohang s.reg with
  | none => none
  | some polled =>
    let sig := Nat.iterate catchSIGTSTP env.signals s.sig
    let expanded : Option (List Char) :=
      if (strstrDollars env.line).isSome then replace_PID env.getpid env.line
      else some env.line
    match expanded with
    | none => none
    | some line =>
      match populate_command sig.SIGTSTPcount { s.input with command_line := line } with
      | none => none
      | some input2 =>
        match dispatch env
            { s with input := input2, reg := polled.reg, sig := sig
                     out := s.out ++ polled.printed ++ [": "] } with
        | none => none
        | some (Round.exits code) => some (Round.exits code)
        | some (Round.left s2) => some (Round.left s2)
        | some (Round.next s2) =>
          match reset_command s2.input with
          | none => none
          | some input3 => some (Round.next { s2 with input := input3 })

/-- The function `prompt`, run for the rounds whose environments are given:
the state after the last of them, or the way the loop ended earlier. -/
def prompt : List Env → Shell → Option Round
  | [], s => some (Round.next s)
  | env :: envs, s =>
    match prompt_round env s with
    | some (Round.next s2) => prompt envs s2
    | other => other

/-- A registry without entries. -/
def emptyRegistry : Registry := { background_PIDS := fun _ => 0, num_background_proc := 0 }

/-- A round in which no signal arrives, no tracked child has changed state,
the process id is 4567, `fork` returns 4000 and a foreground child exits
with code 0. -/
def quietEnv (line : List Char) : Env :=
  { nohang := fun _ => none, signals := 0, line := line, getpid := 4567, home := none
    chdir := fun _ => true, fork := 4000, waited := some 0 }

/-- The waits of a poll that found a terminated child: the pid and the raw
status. -/
def reaped (waits : List (Int × Option Int)) : List (Int × Int) :=
  waits.filterMap (fun w => w.2.map (fun status => (w.1, status)))

/-- A registry tracking the pids 101, 102 and 103, registered in this order. -/
def threeJobs : Registry :=
  { background_PIDS := fun i => if i = 0 then 101 else if i = 1 then 102
                                else if i = 2 then 103 else 0
    num_background_proc := 3 }

/-- A registry tracking the pid 101 alone. -/
def oneJob : Registry :=
  { background_PIDS := fun i => if i = 0 then 101 else 0, num_background_proc := 1 }

/-- Whether an argument is one of the redirection operators `>` and `<`. -/
def isRedirect (a : List Char) : Bool := decide (a = ['>']) || decide (a = ['<'])

/-- The binding a descriptor has after the scan passed the given tokens: every
token equal to `op` binds the descriptor to the file named by its successor. -/
def scanStream (op : List Char) : List (List Char) → Stream → Stream
  | [], s => s
  | [_], s => s
  | a :: b :: rest, s => scanStream op (b :: rest) (if a = op then Stream.file b else s)

/-- Every redirection operator among the tokens is followed by a token, and
`open` succeeds for the file that token names. -/
def targetsOpen (os : ChildOS) : List (List Char) → Bool
  | [] => true
  | [a] => !isRedirect a
  | a :: b :: rest =>
    (decide (a ≠ ['>']) || os.open_create b) && (decide (a ≠ ['<']) || os.open_read b)
      && targetsOpen os (b :: rest)

/-- The slots `0 .. toks.length - 1` of the structure hold the tokens and the
slot after them is `NULL`. -/
def holdsArgs (input : command) (toks : List (List Char)) : Prop :=
  ∀ k : Nat, k ≤ toks.length → input.args (k : Int) = toks[k]?

/-- The structure holding the given tokens, the other slots being `NULL`. -/
def commandOf (toks : List (List Char)) : command :=
  setArgs (freshCommand []) (toks.map some) toks.length

/-- A child for which every `open` and every `dup2` succeeds. -/
def permissiveOS : ChildOS :=
  { open_create := fun _ => true, open_read := fun _ => true, open_write := fun _ => true
    dup2 := fun _ => true }

/-- A round like `quietEnv` in which a foreground child exits with code 1
(raw status 256). -/
def failingEnv (line : List Char) : Env :=
  { quietEnv line with waited := some 256 }

/-- The state of the loop after a round, unless the process exited. -/
def Round.state : Round → Option Shell
  | Round.next s => some s
  | Round.left s => some s
  | Round.exits _ => none

/-- One call of `check_background_processes` read on the list of tracked pids:
the pids kept, in order, and the calls of `waitpid` made. A pid whose child has
not changed state is kept; a pid found terminated is removed, and the pid behind
it, which moves into the freed slot while the index advances, is kept without
being waited for. -/
def sweep (nohang : Int → Option Int) : List Int → List Int × List (Int × Option Int)
  | [] => ([], [])
  | [p] =>
    match nohang p with
    | none => ([p], [(p, none)])
    | some status => ([], [(p, some status)])
  | p :: q :: rest =>
    match nohang p with
    | none => (p :: (sweep nohang (q :: rest)).1, (p, none) :: (sweep nohang (q :: rest)).2)
    | some status => (q :: (sweep nohang rest).1, (p, some status) :: (sweep nohang rest).2)

/-- The argument vector `execvp(args[0], args)` reads: the slots from index `i`
up to the first `NULL`, at most `fuel` of them. -/
def execvpArgs (args : Int → Option (List Char)) : Nat → Int → List (List Char)
  | 0, _ => []
  | fuel + 1, i =>
    match args i with
    | none => []
    | some a => a :: execvpArgs args fuel (i + 1)

/-- A round like `quietEnv` during which the stop signal is delivered once
while the interpreter waits for the line. -/
def stopSignalEnv (line : List Char) : Env :=
  { quietEnv line with signals := 1 }

theorem strstrDollars_none (pid : List Char) :
    ∀ s : List Char, strstrDollars s = none → expandDollars pid s = s
  | [], _ => rfl
  | [c], _ => rfl
  | c :: d :: rest, h => by
    unfold strstrDollars at h
    by_cases hc : c = '$' ∧ d = '$'
    · simp [hc] at h
    · have hc2 : ¬ (c = '$' ∧ (d :: rest).head? = some '$') := by simpa using hc
      rw [if_neg hc2] at h
      have h2 : strstrDollars (d :: rest) = none := by simpa using h
      rw [expandDollars, if_neg hc, strstrDollars_none pid (d :: rest) h2]

theorem strstrDollars_some (pid : List Char) :
    ∀ (s : List Char) (k : Nat), strstrDollars s = some k →
      k + 2 ≤ s.length ∧
      expandDollars pid s = s.take k ++ pid ++ expandDollars pid (s.drop (k + 2))
  | [], k, h => by simp [strstrDollars] at h
  | [c], k, h => by simp [strstrDollars] at h
  | c :: d :: rest, k, h => by
    unfold strstrDollars at h
    by_cases hc : c = '$' ∧ d = '$'
    · have hc2 : c = '$' ∧ (d :: rest).head? = some '$' := by simpa using hc
      rw [if_pos hc2] at h
      have hk : k = 0 := by simpa using h.symm
      subst hk
      refine ⟨by simp, ?_⟩
      rw [expandDollars, if_pos hc]
      simp
    · have hc2 : ¬ (c = '$' ∧ (d :: rest).head? = some '$') := by simpa using hc
      rw [if_neg hc2] at h
      cases hr : strstrDollars (d :: rest) with
      | none => simp [hr] at h
      | some j =>
        rw [hr] at h
        have hk : k = j + 1 := by simpa using h.symm
        subst hk
        obtain ⟨hlen, hexp⟩ := strstrDollars_some pid (d :: rest) j hr
        refine ⟨by simp at hlen ⊢; omega, ?_⟩
        rw [expandDollars, if_neg hc, hexp]
        simp

theorem expandDollars_length_ge (pid : List Char) (hpid : 2 ≤ pid.length) :
    ∀ s : List Char, s.length ≤ (expandDollars pid s).length
  | [] => by simp [expandDollars]
  | [c] => by simp [expandDollars]
  | c :: d :: rest => by
    rw [expandDollars]
    split
    · have := expandDollars_length_ge pid hpid rest
      simp only [List.length_append, List.length_cons]
      omega
    · have := expandDollars_length_ge pid hpid (d :: rest)
      simp only [List.length_cons] at this ⊢
      omega

theorem replacePIDLoop_eq (pid : List Char) :
    ∀ (fuel : Nat) (command : List Char) (ptr : Nat),
      ptr ≤ command.length → command.length - ptr < fuel →
      command.length + 1 ≤ LINE_BYTES →
      (command.take ptr ++ expandDollars pid (command.drop ptr)).length + 1 ≤ LINE_BYTES →
      replacePIDLoop pid fuel command ptr
        = some (command.take ptr ++ expandDollars pid (command.drop ptr))
  | 0, _, _, _, hfuel, _, _ => by omega
  | fuel + 1, command, ptr, hptr, hfuel, hfit, hexp => by
    unfold replacePIDLoop
    cases hs : strstrDollars (command.drop ptr) with
    | none =>
      simp only []
      rw [strstrDollars_none pid _ hs, List.take_append_drop]
    | some k =>
      simp only []
      obtain ⟨hk, hx⟩ := strstrDollars_some pid _ k hs
      have hk2 : ptr + k + 2 ≤ command.length := by
        simp only [List.length_drop] at hk
        omega
      have htake : command.take (ptr + k) = command.take ptr ++ (command.drop ptr).take k := by
        rw [List.take_add]
      have hdrop : (command.drop ptr).drop (k + 2) = command.drop (ptr + k + 2) := by
        rw [List.drop_drop]
        congr 1
      rw [hx, hdrop] at hexp
      have hexp2 : (command.take (ptr + k) ++ pid
          ++ expandDollars pid (command.drop (ptr + k + 2))).length + 1 ≤ LINE_BYTES := by
        rw [htake]
        simpa [List.append_assoc] using hexp
      have hlt : (command.take (ptr + k)).length = ptr + k := by
        rw [List.length_take]
        omega
      have htemp : (command.take (ptr + k) ++ pid ++ command.drop (ptr + k + 2)).length + 1
          ≤ LINE_BYTES := by
        simp only [List.length_append, List.length_drop, hlt] at hexp2 ⊢
        by_cases hp : 2 ≤ pid.length
        · have := expandDollars_length_ge pid hp (command.drop (ptr + k + 2))
          simp only [List.length_drop] at this
          omega
        · omega
      rw [if_pos htemp]
      have hpre : (command.take (ptr + k) ++ pid).length = ptr + k + pid.length := by
        rw [List.length_append, hlt]
      have ht : (command.take (ptr + k) ++ pid ++ command.drop (ptr + k + 2)).take
          (ptr + k + pid.length) = command.take (ptr + k) ++ pid := by
        rw [← hpre, List.take_left]
      have hd : (command.take (ptr + k) ++ pid ++ command.drop (ptr + k + 2)).drop
          (ptr + k + pid.length) = command.drop (ptr + k + 2) := by
        rw [← hpre, List.drop_left]
      rw [replacePIDLoop_eq pid fuel _ (ptr + k + pid.length), ht, hd, hx, hdrop, htake]
      · simp [List.append_assoc]
      · simp only [List.length_append, List.length_drop, hlt]
        omega
      · simp only [List.length_append, List.length_drop, hlt]
        omega
      · exact htemp
      · rw [ht, hd]
        exact hexp2

/-- Claim C1. For every line held in the 2048-byte buffer and every
process id whose decimal form fits the array `pid` (at most nine digits), if the
fully expanded text still fits the 2048-byte buffer then `replace_PID` returns
and the line has become the text in which, left to right, every non-overlapping
`$$` is replaced by the digits of the process id, all else unchanged. -/
theorem replace_PID_expands (p : Nat) (line : List Char)
    (hpid : p < 10 ^ 9)
    (hline : line.length + 1 ≤ LINE_BYTES)
    (hfit : (expandDollars (Nat.toDigits 10 p) line).length + 1 ≤ LINE_BYTES) :
    replace_PID p line = some (expandDollars (Nat.toDigits 10 p) line) := by
  have hdig : (pidText p).length + 1 ≤ PID_BYTES := by
    have h := Nat.toDigitsCore_length 10 (by decide) (p + 1) p 9 hpid (by decide)
    have h2 : pidText p = Nat.toDigitsCore 10 (p + 1) p [] := rfl
    rw [h2]
    show _ + 1 ≤ 10
    omega
  unfold replace_PID
  rw [if_pos hdig]
  have := replacePIDLoop_eq (pidText p) (line.length + 1) line 0 (Nat.zero_le _)
    (by omega) hline (by simpa [pidText] using hfit)
  simpa [pidText] using this

/-- Witness of `replace_PID_expands`: with process id 4567 the line `echo $$`
becomes `echo 4567` and `$$$` becomes `4567$`. -/
theorem replace_PID_expands_witness :
    replace_PID 4567 "echo $$\n".toList = some "echo 4567\n".toList ∧
      replace_PID 4567 "$$$".toList = some "4567$".toList :=
  ⟨(replace_PID_expands 4567 "echo $$\n".toList (by decide) (by decide) (by decide)).trans
      (by decide),
    (replace_PID_expands 4567 "$$$".toList (by decide) (by decide) (by decide)).trans
      (by decide)⟩

/-! ### Facts about the parser -/

theorem splitRuns_dropWhile (sep : Char → Bool) :
    ∀ s : List Char, splitRuns sep (s.dropWhile sep) = splitRuns sep s
  | [] => rfl
  | c :: rest => by
    by_cases hc : sep c = true
    · rw [List.dropWhile_cons_of_pos hc, splitRuns_dropWhile sep rest, splitRuns, if_pos hc]
    · rw [List.dropWhile_cons_of_neg hc]

theorem splitRuns_cons_of_not_sep (sep : Char → Bool) :
    ∀ (rest : List Char) (c : Char), sep c = false →
      splitRuns sep (c :: rest)
        = (c :: rest).takeWhile (fun x => !sep x)
          :: splitRuns sep ((c :: rest).dropWhile (fun x => !sep x))
  | [], c, hc => by
    simp [splitRuns, hc]
  | d :: r, c, hc => by
    cases hd : sep d with
    | true =>
      simp [splitRuns, hc, hd]
    | false =>
      have ih := splitRuns_cons_of_not_sep sep r d hd
      rw [splitRuns, if_neg (by simp [hc])]
      rw [if_neg (by simp [hd]), ih]
      simp [hc, hd]

theorem strtok_r_none (s r : List Char) (h : strtok_r s = (none, r)) :
    spaceWords s = [] ∧ r = [] := by
  unfold strtok_r at h
  cases hd : s.dropWhile (· == ' ') with
  | nil =>
    rw [hd] at h
    refine ⟨?_, by simpa using (congrArg Prod.snd h).symm⟩
    have := splitRuns_dropWhile (· == ' ') s
    rw [hd] at this
    exact this.symm
  | cons c s1 =>
    rw [hd] at h
    simp only [] at h
    split at h <;> simp at h

theorem strtok_r_some (s tok r : List Char) (h : strtok_r s = (some tok, r)) :
    spaceWords s = tok :: spaceWords r ∧ r.length < s.length ∧
      (s.getLast? ≠ some ' ' → r.getLast? ≠ some ' ') := by
  unfold strtok_r at h
  cases hd : s.dropWhile (· == ' ') with
  | nil =>
    rw [hd] at h
    simp at h
  | cons c s1 =>
    rw [hd] at h
    simp only [] at h
    have hsuf : (c :: s1) <:+ s := hd ▸ List.dropWhile_suffix _
    have hc : (c == ' ') = false := by
      have := List.head?_dropWhile_not (· == ' ') s
      rw [hd] at this
      simpa using this
    have hw : spaceWords s = (c :: s1).takeWhile (fun x => !(x == ' '))
        :: spaceWords ((c :: s1).dropWhile (fun x => !(x == ' '))) := by
      have h1 := splitRuns_dropWhile (· == ' ') s
      rw [hd] at h1
      unfold spaceWords
      rw [← h1]
      exact splitRuns_cons_of_not_sep (· == ' ') s1 c hc
    have hbne : (fun x : Char => x != ' ') = (fun x => !(x == ' ')) := rfl
    rw [hbne] at h
    cases he : (c :: s1).dropWhile (fun x => !(x == ' ')) with
    | nil =>
      rw [he] at h
      simp only [Prod.mk.injEq, Option.some.injEq] at h
      obtain ⟨h1, h2⟩ := h
      subst h2
      rw [hw, he, h1]
      refine ⟨rfl, ?_, by simp⟩
      have := hsuf.length_le
      simp at this ⊢
      omega
    | cons d r2 =>
      rw [he] at h
      simp only [Prod.mk.injEq, Option.some.injEq] at h
      obtain ⟨h1, h2⟩ := h
      subst h2
      have hsuf2 : (d :: r2) <:+ (c :: s1) := he ▸ List.dropWhile_suffix _
      have hd2 : (d == ' ') = true := by
        have := List.head?_dropWhile_not (fun x => !(x == ' ')) (c :: s1)
        rw [he] at this
        simpa using this
      have hr : r2 <:+ s := (List.suffix_cons d r2).trans (hsuf2.trans hsuf)
      have hr2 : (d :: r2) <:+ s := hsuf2.trans hsuf
      refine ⟨?_, ?_, ?_⟩
      · rw [hw, he, h1]
        congr 1
        unfold spaceWords
        rw [splitRuns, if_pos hd2]
      · have := hr2.length_le
        simp at this
        omega
      · intro hs hlast
        apply hs
        have hne : r2 ≠ [] := by
          intro h0
          simp [h0] at hlast
        obtain ⟨t, ht⟩ := hr
        rw [← ht, List.getLast?_append_of_ne_nil _ hne]
        exact hlast

theorem populateLoop_eq :
    ∀ (fuel : Nat) (input : command) (s : List Char),
      s.length < fuel → s.getLast? ≠ some ' ' → 0 ≤ input.num_args →
      input.num_args + (spaceWords s).length ≤ MAX_ARGS →
      populateLoop fuel input s = some ((spaceWords s).foldl pushArg input)
  | 0, _, _, hf, _, _, _ => by omega
  | fuel + 1, input, s, hf, hlast, hn, hcap => by
    unfold populateLoop
    by_cases hs : s = []
    · subst hs
      simp [spaceWords, splitRuns]
    · rw [if_neg hs]
      rcases htok : strtok_r s with ⟨_ | tok, r⟩
      · obtain ⟨hw, -⟩ := strtok_r_none s r htok
        exfalso
        have hall : s.dropWhile (· == ' ') = [] := by
          unfold strtok_r at htok
          cases hd : s.dropWhile (· == ' ') with
          | nil => rfl
          | cons c s1 =>
            rw [hd] at htok
            simp only [] at htok
            split at htok <;> simp at htok
        rw [List.dropWhile_eq_nil_iff] at hall
        obtain ⟨a, ha⟩ := (List.getLast?_isSome.mpr hs |> Option.isSome_iff_exists.mp)
        have hmem : a ∈ s := List.mem_of_getLast?_eq_some ha
        have := hall a hmem
        rw [ha] at hlast
        simp at this
        exact hlast (by rw [this])
      · obtain ⟨hw, hlen, hl⟩ := strtok_r_some s tok r htok
        simp only []
        rw [hw] at hcap ⊢
        simp only [List.length_cons, Nat.cast_add, Nat.cast_one] at hcap
        rw [if_pos ⟨hn, by omega⟩]
        rw [populateLoop_eq fuel _ r (by omega) (hl hlast) (by simp; omega) (by simp; omega)]
        rfl

theorem setArgs_push (input : command) (pre : List (List Char)) (tok : List Char) :
    pushArg (setArgs input (pre.map some) pre.length) tok
      = setArgs input ((pre ++ [tok]).map some) (pre ++ [tok]).length := by
  unfold pushArg setArgs
  simp only [List.length_map, List.length_append, List.length_singleton, Nat.cast_add,
    Nat.cast_one, command.mk.injEq, true_and]
  funext i
  by_cases hi : i = (pre.length : Int)
  · subst hi
    simp
  · rw [Function.update_noteq hi]
    by_cases h1 : 0 ≤ i ∧ i < (pre.length : Int)
    · have h2 : 0 ≤ i ∧ i < (pre.length : Int) + 1 := ⟨h1.1, by omega⟩
      rw [if_pos h1, if_pos h2]
      have h3 : i.toNat < pre.length := by omega
      simp [List.getElem?_append_left, h3]
    · have h2 : ¬ (0 ≤ i ∧ i < (pre.length : Int) + 1) := by omega
      rw [if_neg h1, if_neg h2]

theorem foldl_pushArg_setArgs (input : command) :
    ∀ (toks pre : List (List Char)),
      toks.foldl pushArg (setArgs input (pre.map some) pre.length)
        = setArgs input ((pre ++ toks).map some) (pre ++ toks).length
  | [], pre => by simp
  | tok :: toks, pre => by
    rw [List.foldl_cons, setArgs_push, foldl_pushArg_setArgs input toks (pre ++ [tok])]
    simp

theorem setArgs_nil (input : command) (h : input.num_args = 0) :
    setArgs input [] 0 = input := by
  cases input
  simp only [setArgs, command.mk.injEq, true_and] at h ⊢
  exact ⟨h.symm, by funext i; simp⟩

theorem argv_setArgs (input : command) (slots : List (Option (List Char))) (n : Nat)
    (hn : n ≤ slots.length) : argv (setArgs input slots n) = slots.take n := by
  unfold argv setArgs
  apply List.ext_getElem?
  intro k
  simp only [Int.toNat_ofNat, List.getElem?_map, List.getElem?_take]
  by_cases hk : k < n
  · rw [List.getElem?_range hk, if_pos hk]
    have : (0 : Int) ≤ k ∧ (k : Int) < slots.length := by omega
    simp only [Option.map_some', this, and_self, if_true, Int.toNat_ofNat]
    rw [List.getElem?_eq_getElem (by omega)]
    rfl
  · rw [if_neg hk, List.getElem?_eq_none (by simp; omega)]
    rfl

theorem populateFinish_setArgs (n : Int) (input : command) (ws : List (List Char))
    (l : List Char) (hl : l ≠ []) (hcap : (ws.length : Int) + 1 ≤ MAX_ARGS) :
    populateFinish n (setArgs input ((ws ++ [l]).map some) (ws ++ [l]).length)
      = some (if n.tmod 2 ≠ 0 ∧ l.dropLast = ['&']
              then setArgs input (ws.map some ++ [none]) ws.length
              else setArgs input (ws.map some ++ [some l.dropLast]) (ws.length + 1)) := by
  have hlen : (((ws ++ [l]).length : Nat) : Int) = (ws.length : Int) + 1 := by simp
  have hidx : ((ws.length : Int) + 1 - 1).toNat = ws.length := by omega
  have hget : (setArgs input ((ws ++ [l]).map some) (ws ++ [l]).length).args
      ((ws.length : Int) + 1 - 1) = some l := by
    unfold setArgs
    simp only [List.length_map, hlen]
    rw [if_pos ⟨by omega, by omega⟩, hidx]
    simp
  have hupd : ∀ v : Option (List Char),
      Function.update (setArgs input ((ws ++ [l]).map some) (ws ++ [l]).length).args
        ((ws.length : Int) + 1 - 1) v
      = (setArgs input (ws.map some ++ [v]) (ws.length + 1)).args := by
    intro v
    funext i
    unfold setArgs
    simp only [List.length_map, List.length_append, List.length_singleton, Nat.cast_add,
      Nat.cast_one]
    by_cases hi : i = (ws.length : Int) + 1 - 1
    · subst hi
      rw [Function.update_same, if_pos ⟨by omega, by omega⟩, hidx]
      simp
    · rw [Function.update_noteq hi]
      by_cases h1 : 0 ≤ i ∧ i < (ws.length : Int) + 1
      · rw [if_pos h1, if_pos h1]
        have h3 : i.toNat < ws.length := by omega
        simp [List.getElem?_append_left, h3]
      · rw [if_neg h1, if_neg h1]
  unfold populateFinish
  have hnum : (setArgs input ((ws ++ [l]).map some) (ws ++ [l]).length).num_args
      = (ws.length : Int) + 1 := by
    simp [setArgs]
  rw [hnum, if_pos ⟨by omega, by omega⟩, hget]
  simp only [if_neg hl, hupd]
  have hupd2 : Function.update
      (setArgs input (ws.map some ++ [some l.dropLast]) (ws.length + 1)).args
        ((ws.length : Int) + 1 - 1) none
      = (setArgs input (ws.map some ++ [none]) (ws.length + 1)).args := by
    rw [← hupd (some l.dropLast), Function.update_idem, hupd none]
  by_cases hodd : n.tmod 2 ≠ 0
  · by_cases hamp : l.dropLast = ['&']
    · rw [if_pos hodd, if_pos hamp, if_pos ⟨hodd, hamp⟩]
      simp only [hnum, hupd2]
      simp [setArgs]
    · rw [if_pos hodd, if_neg hamp, if_neg (fun h => hamp h.2)]
      simp [setArgs]
  · rw [if_neg hodd, if_neg (fun h => hodd h.1)]
    simp [setArgs]

/-- What `populate_command` does with a line that does not end in a space
(such is every line that ends in a newline) and has at least one token. -/
theorem populate_command_eq (n : Int) (input : command) (ws : List (List Char))
    (l : List Char) (h0 : input.num_args = 0)
    (hlast : input.command_line.getLast? ≠ some ' ')
    (hw : spaceWords input.command_line = ws ++ [l]) (hl : l ≠ [])
    (hcap : (ws.length : Int) + 1 ≤ MAX_ARGS) :
    populate_command n input
      = some (if n.tmod 2 ≠ 0 ∧ l.dropLast = ['&']
              then setArgs input (ws.map some ++ [none]) ws.length
              else setArgs input (ws.map some ++ [some l.dropLast]) (ws.length + 1)) := by
  unfold populate_command
  rcases htok : strtok_r input.command_line with ⟨_ | tok, r⟩
  · obtain ⟨hnil, -⟩ := strtok_r_none _ _ htok
    rw [hnil] at hw
    simp at hw
  · obtain ⟨hsw, -, hr⟩ := strtok_r_some _ _ _ htok
    simp only [Option.getD_some]
    have h1 : ({ input with args := Function.update input.args 0 (some tok),
                            num_args := input.num_args + 1 } : command)
        = pushArg (setArgs input [] 0) tok := by
      rw [setArgs_nil input h0]
      unfold pushArg
      rw [h0]
    have hlenw : (spaceWords r).length = ws.length := by
      have := congrArg List.length (hsw.symm.trans hw)
      simpa using this
    rw [h1, populateLoop_eq _ _ r (by omega) (hr hlast) (by simp [pushArg, setArgs])
      (by simp [pushArg, setArgs, hlenw]; omega)]
    simp only []
    rw [← List.foldl_cons, ← hsw, hw]
    have := foldl_pushArg_setArgs input (ws ++ [l]) []
    simp only [List.map_nil, List.length_nil, Nat.cast_zero, List.nil_append] at this
    rw [this]
    exact populateFinish_setArgs n input ws l hl hcap

theorem splitRuns_append_of_not_sep (sep : Char → Bool) (x : Char) (hx : sep x = false) :
    ∀ (body : List Char) (a : Char), body.getLast? = some a → sep a = false →
      ∃ ws w, splitRuns sep body = ws ++ [w] ∧ w ≠ [] ∧
        splitRuns sep (body ++ [x]) = ws ++ [w ++ [x]]
  | [], a, h, _ => by simp at h
  | [c], a, h, ha => by
    have hc : sep c = false := by
      simp only [List.getLast?_singleton, Option.some.injEq] at h
      rw [h]
      exact ha
    exact ⟨[], [c], by simp [splitRuns, hc], by simp, by simp [splitRuns, hc, hx]⟩
  | c :: d :: r, a, h, ha => by
    rw [List.getLast?_cons_cons] at h
    obtain ⟨ws, w, h1, hw, h2⟩ := splitRuns_append_of_not_sep sep x hx (d :: r) a h ha
    rw [List.cons_append] at h2
    cases hc : sep c with
    | true =>
      refine ⟨ws, w, ?_, hw, ?_⟩
      · rw [splitRuns, if_pos hc, h1]
      · simp only [List.cons_append]
        rw [splitRuns, if_pos hc, h2]
    | false =>
      cases hd : sep d with
      | true =>
        refine ⟨[c] :: ws, w, ?_, hw, ?_⟩
        · rw [splitRuns, if_neg (by simp [hc]), if_pos (by simp [hd]), h1]
          rfl
        · simp only [List.cons_append]
          rw [splitRuns, if_neg (by simp [hc]), if_pos (by simp [hd]), h2]
      | false =>
        cases ws with
        | nil =>
          refine ⟨[], c :: w, ?_, by simp, ?_⟩
          · rw [splitRuns, if_neg (by simp [hc]), if_neg (by simp [hd]), h1]
            rfl
          · simp only [List.cons_append]
            rw [splitRuns, if_neg (by simp [hc]), if_neg (by simp [hd]), h2]
            rfl
        | cons w0 ws2 =>
          refine ⟨(c :: w0) :: ws2, w, ?_, hw, ?_⟩
          · rw [splitRuns, if_neg (by simp [hc]), if_neg (by simp [hd]), h1]
            rfl
          · simp only [List.cons_append]
            rw [splitRuns, if_neg (by simp [hc]), if_neg (by simp [hd]), h2]
            rfl

theorem splitRuns_congr (sep1 sep2 : Char → Bool) :
    ∀ s : List Char, (∀ c ∈ s, sep1 c = sep2 c) → splitRuns sep1 s = splitRuns sep2 s
  | [], _ => rfl
  | c :: rest, h => by
    have hc : sep1 c = sep2 c := h c (by simp)
    have hr : ∀ x ∈ rest, sep1 x = sep2 x := fun x hx => h x (by simp [hx])
    have hh : (rest.head?.map sep1).getD true = (rest.head?.map sep2).getD true := by
      cases rest with
      | nil => rfl
      | cons d r => simp [hr d (by simp)]
    rw [splitRuns, splitRuns, hc, hh, splitRuns_congr sep1 sep2 rest hr]

theorem splitRuns_append_sep (sep : Char → Bool) (x : Char) (hx : sep x = true) :
    ∀ s : List Char, splitRuns sep (s ++ [x]) = splitRuns sep s
  | [] => by simp [splitRuns, hx]
  | [c] => by
    cases hc : sep c <;> simp [splitRuns, hx, hc]
  | c :: d :: r => by
    have ih := splitRuns_append_sep sep x hx (d :: r)
    rw [List.cons_append] at ih
    rw [List.cons_append, List.cons_append, splitRuns, ih]
    conv_rhs => rw [splitRuns]
    simp

/-- Claim C2, as amended. For every line `body ++ "\n"` whose body ends in a
character other than the space (so it has a word and no space stands between
the last word and the newline) and has at most 512 space-separated words,
`populate_command` in normal mode (even `SIGTSTPcount`), on a structure with
`num_args = 0`, returns with the argument list equal to the ordered maximal
runs of non-space characters of the body and `num_args` equal to their number.
When the space is the only white-space character in the body these runs are the
maximal runs of non-whitespace characters of the line. -/
theorem populate_command_words (count : Int) (input : command) (body : List Char) (a : Char)
    (hmode : count.tmod 2 = 0) (h0 : input.num_args = 0)
    (hline : input.command_line = body ++ ['\n'])
    (hbody : body.getLast? = some a) (ha : a ≠ ' ')
    (hcap : ((spaceWords body).length : Int) ≤ MAX_ARGS) :
    ∃ c, populate_command count input = some c ∧
      c.num_args = (spaceWords body).length ∧
      argv c = (spaceWords body).map some ∧
      ((∀ ch ∈ body, isWhitespace ch = true → ch = ' ') →
        argv c = (wordsOf input.command_line).map some) := by
  obtain ⟨ws, w, h1, hw, h2⟩ :=
    splitRuns_append_of_not_sep (· == ' ') '\n' (by decide) body a hbody (by simpa using ha)
  have hlen : (spaceWords body).length = ws.length + 1 := by
    unfold spaceWords
    rw [h1]
    simp
  have hlast : input.command_line.getLast? ≠ some ' ' := by
    rw [hline, List.getLast?_concat]
    decide
  have heq := populate_command_eq count input ws (w ++ ['\n']) h0 hlast
    (by unfold spaceWords; rw [hline]; exact h2) (by simp)
    (by rw [hlen] at hcap; exact_mod_cast hcap)
  rw [if_neg (fun h => h.1 hmode), List.dropLast_concat] at heq
  refine ⟨_, heq, ?_, ?_, ?_⟩
  · rw [hlen]
    simp [setArgs]
  · have := argv_setArgs input (ws.map some ++ [some w]) (ws.length + 1) (by simp)
    rw [show ((ws.length : Int) + 1) = ((ws.length + 1 : Nat) : Int) by simp, this]
    unfold spaceWords
    rw [h1]
    simp
  · intro hsp
    have := argv_setArgs input (ws.map some ++ [some w]) (ws.length + 1) (by simp)
    rw [show ((ws.length : Int) + 1) = ((ws.length + 1 : Nat) : Int) by simp, this]
    unfold wordsOf
    rw [hline, splitRuns_append_sep isWhitespace '\n' (by decide) body,
      splitRuns_congr isWhitespace (· == ' ') body, h1]
    · simp
    · intro ch hch
      cases hws : isWhitespace ch with
      | true =>
        rw [hsp ch hch hws]
        rfl
      | false =>
        unfold isWhitespace at hws
        simp only [Bool.or_eq_false_iff] at hws
        exact hws.1.1.1.1.1.symm

/-- Witness of `populate_command_words`: the line `ls    -l` of the
specification parses to the two arguments `ls` and `-l`. -/
theorem populate_command_words_witness :
    ∃ c, populate_command 0 (freshCommand "ls    -l\n".toList) = some c ∧
      c.num_args = (spaceWords "ls    -l".toList).length ∧
      argv c = (spaceWords "ls    -l".toList).map some ∧
      ((∀ ch ∈ "ls    -l".toList, isWhitespace ch = true → ch = ' ') →
        argv c = (wordsOf (freshCommand "ls    -l\n".toList).command_line).map some) :=
  populate_command_words 0 (freshCommand "ls    -l\n".toList) "ls    -l".toList 'l'
    (by decide) rfl (by decide) (by decide) (by decide) (by decide)

/-- Claim C2, counterexample. On the line `ls -l ` (one space before the
newline) `populate_command` in normal mode produces three arguments, the last
one empty, whereas the line has the two words `ls` and `-l`; and on a line
whose words are separated by a tab it produces the single argument `ls<TAB>-l`. -/
theorem populate_command_trailing_space :
    (populate_command 0 (freshCommand "ls -l \n".toList)).map (fun c => (argv c, c.num_args))
        = some ([some "ls".toList, some "-l".toList, some []], 3) ∧
      wordsOf "ls -l \n".toList = ["ls".toList, "-l".toList] ∧
      (populate_command 0 (freshCommand "ls\t-l\n".toList)).map (fun c => (argv c, c.num_args))
        = some ([some "ls\t-l".toList], 1) ∧
      wordsOf "ls\t-l\n".toList = ["ls".toList, "-l".toList] := by
  decide

/-! ### Facts about the mode toggle and the dispatch -/

theorem setArgs_update_last (input : command) (pre : List (Option (List Char)))
    (v v2 : Option (List Char)) (n m : Int) :
    Function.update (setArgs input (pre ++ [v]) n).args pre.length v2
      = (setArgs input (pre ++ [v2]) m).args := by
  funext i
  unfold setArgs
  simp only [List.length_append, List.length_singleton, Nat.cast_add, Nat.cast_one]
  by_cases hi : i = (pre.length : Int)
  · subst hi
    rw [Function.update_same, if_pos ⟨by omega, by omega⟩]
    simp
  · rw [Function.update_noteq hi]
    by_cases h1 : 0 ≤ i ∧ i < (pre.length : Int) + 1
    · rw [if_pos h1, if_pos h1]
      have h3 : i.toNat < pre.length := by omega
      simp [List.getElem?_append_left, h3]
    · rw [if_neg h1, if_neg h1]

theorem setArgs_args_last (input : command) (pre : List (Option (List Char)))
    (v : Option (List Char)) (n : Int) :
    (setArgs input (pre ++ [v]) n).args pre.length = v := by
  unfold setArgs
  simp only [List.length_append, List.length_singleton, Nat.cast_add, Nat.cast_one]
  rw [if_pos ⟨by omega, by omega⟩]
  simp

theorem catchSIGTSTP_count (N : Nat) :
    (Nat.iterate catchSIGTSTP N initialSignalState).SIGTSTPcount = (N : Int) := by
  induction N with
  | zero => rfl
  | succ k ih =>
    rw [Function.iterate_succ_apply', catchSIGTSTP]
    simp only [ih]
    push_cast
    rfl

theorem tmod_two_natCast (N : Nat) : ((N : Int).tmod 2 ≠ 0) ↔ N % 2 = 1 := by
  rw [Int.tmod_eq_emod (by omega) (by omega)]
  omega

theorem foreground_command_returned (input : command) (reg : Registry) (spawnPid : Int)
    (waited : Option Int) (hfork : spawnPid ≠ -1) :
    ∃ r, foreground_command input reg spawnPid waited = Outcome.returned r ∧
      r.background = false ∧ r.input = input ∧ r.reg = reg := by
  unfold foreground_command
  rw [if_neg hfork]
  exact ⟨_, rfl, rfl, rfl, rfl⟩

/-- The dispatch on lines with a single trailing `&`, by the parity of the
stop signals. Start from the initial state (counter 0) and let
`catchSIGTSTP` run `N` times. Take a line `body ++ "\n"` whose last token is
`&`, preceded by at least one token, the one right before the `&` not being
`&` itself. Then `populate_command` followed by `execute` (fork succeeding, the
registry having a free slot) does this: for even `N` the `&` is kept and
`background_command` is called, which removes it and records the child; for
odd `N` the `&` is dropped by the parser and `foreground_command` is called. -/
theorem execute_follows_parity (N : Nat) (input : command) (body : List Char)
    (toks : List (List Char)) (t : List Char) (reg : Registry) (spawnPid : Int)
    (waited : Option Int)
    (h0 : input.num_args = 0) (hline : input.command_line = body ++ ['\n'])
    (hbody : body.getLast? = some '&') (hwords : spaceWords body = toks ++ [['&']])
    (hprev : toks.getLast? = some t) (ht : t ≠ ['&'])
    (hcap : (toks.length : Int) + 1 ≤ MAX_ARGS)
    (hfork : spawnPid ≠ -1)
    (hreg : 0 ≤ reg.num_background_proc ∧ reg.num_background_proc < MAX_BACKGROUND) :
    ∃ c r, populate_command (Nat.iterate catchSIGTSTP N initialSignalState).SIGTSTPcount input
        = some c ∧
      execute c reg spawnPid waited = some (Outcome.returned r) ∧
      argv r.input = toks.map some ∧
      (N % 2 = 0 →
        argv c = (toks ++ [['&']]).map some ∧ r.background = true ∧
        r.reg.num_background_proc = reg.num_background_proc + 1 ∧
        r.reg.background_PIDS reg.num_background_proc = spawnPid) ∧
      (N % 2 = 1 →
        argv c = toks.map some ∧ r.background = false ∧ r.input = c ∧ r.reg = reg) := by
  obtain ⟨ws, w, h1, -, h2⟩ :=
    splitRuns_append_of_not_sep (· == ' ') '\n' (by decide) body '&' hbody (by decide)
  have hsw : spaceWords body = ws ++ [w] := h1
  rw [hwords] at hsw
  obtain ⟨hws, hw⟩ := List.append_inj' hsw rfl
  have hw2 : w = ['&'] := by simpa using hw.symm
  subst hws
  subst hw2
  obtain ⟨ts, hts⟩ := List.getLast?_eq_some_iff.mp hprev
  have hlast : input.command_line.getLast? ≠ some ' ' := by
    rw [hline, List.getLast?_concat]
    decide
  have heq := populate_command_eq (Nat.iterate catchSIGTSTP N initialSignalState).SIGTSTPcount
    input toks (['&'] ++ ['\n']) h0 hlast (by unfold spaceWords; rw [hline]; exact h2)
    (by simp) hcap
  rw [catchSIGTSTP_count] at heq ⊢
  have htl : (toks.length : Int) = (ts.length : Int) + 1 := by
    rw [hts]
    simp
  have hcapn : (ts.length : Int) + 1 < 512 := by
    have : MAX_ARGS = 512 := rfl
    omega
  by_cases hodd : N % 2 = 1
  · -- foreground-only mode
    have hcond : (N : Int).tmod 2 ≠ 0 ∧ (['&'] ++ ['\n']).dropLast = ['&'] :=
      ⟨(tmod_two_natCast N).mpr hodd, by decide⟩
    rw [if_pos hcond] at heq
    have hargv : argv (setArgs input (toks.map some ++ [none]) toks.length)
        = toks.map some := by
      rw [argv_setArgs input _ toks.length (by simp)]
      simp
    have hprevArg : (setArgs input (toks.map some ++ [none]) toks.length).args
        ((toks.length : Int) - 1) = some t := by
      unfold setArgs
      simp only [List.length_append, List.length_map, List.length_singleton, Nat.cast_add,
        Nat.cast_one]
      rw [if_pos ⟨by omega, by omega⟩]
      have : ((toks.length : Int) - 1).toNat = ts.length := by omega
      rw [this, hts]
      simp [List.getElem_append_right]
    obtain ⟨r, hr, hrb, hri, hrr⟩ := foreground_command_returned
      (setArgs input (toks.map some ++ [none]) toks.length) reg spawnPid waited hfork
    refine ⟨_, r, heq, ?_, by rw [hri]; exact hargv, ?_, ?_⟩
    · unfold execute
      have hnum : (setArgs input (toks.map some ++ [none]) toks.length).num_args
          = toks.length := rfl
      rw [hnum, if_pos ⟨by omega, by rw [show MAX_ARGS = 512 from rfl]; omega⟩, hprevArg]
      simp only [if_neg ht]
      rw [hr]
    · intro h
      omega
    · intro _
      exact ⟨hargv, hrb, hri, hrr⟩
  · -- normal mode
    have hcond : ¬ ((N : Int).tmod 2 ≠ 0 ∧ (['&'] ++ ['\n']).dropLast = ['&']) :=
      fun h => hodd ((tmod_two_natCast N).mp h.1)
    rw [if_neg hcond] at heq
    have hdl : (['&'] ++ ['\n']).dropLast = ['&'] := by decide
    rw [hdl] at heq
    have hargv : argv (setArgs input (toks.map some ++ [some ['&']]) (toks.length + 1))
        = (toks ++ [['&']]).map some := by
      rw [show ((toks.length : Int) + 1) = ((toks.length + 1 : Nat) : Int) by simp,
        argv_setArgs input _ (toks.length + 1) (by simp)]
      simp
    have hlastArg := setArgs_args_last input (toks.map some) (some ['&']) (toks.length + 1)
    rw [List.length_map] at hlastArg
    have hupd := setArgs_update_last input (toks.map some) (some ['&']) none
      (toks.length + 1) toks.length
    rw [List.length_map] at hupd
    refine ⟨_, { input := setArgs input (toks.map some ++ [none]) toks.length,
                 reg := { background_PIDS :=
                            Function.update reg.background_PIDS reg.num_background_proc spawnPid
                          num_background_proc := reg.num_background_proc + 1 },
                 status := (-5 : Int).tdiv 256,
                 printed := ["background process pid is " ++ toString spawnPid ++ "\n"],
                 background := true }, heq, ?_, ?_, ?_, ?_⟩
    · unfold execute
      have hnum : (setArgs input (toks.map some ++ [some ['&']]) (toks.length + 1)).num_args
          = (toks.length : Int) + 1 := rfl
      have hidx : (toks.length : Int) + 1 - 1 = toks.length := by omega
      rw [hnum, hidx, if_pos ⟨by omega, by rw [show MAX_ARGS = 512 from rfl]; omega⟩, hlastArg]
      simp only [if_true]
      unfold background_command
      rw [hnum, hidx, if_pos ⟨by omega, by rw [show MAX_ARGS = 512 from rfl]; omega⟩,
        if_neg hfork, if_pos hreg, hupd]
      rfl
    · rw [argv_setArgs input _ toks.length (by simp)]
      simp
    · intro _
      exact ⟨hargv, rfl, rfl, by simp⟩
    · intro h
      omega

/-- Witness of `execute_follows_parity`: after one delivery of the stop signal
the line `ls &` is parsed to `ls` alone and run by `foreground_command`. -/
theorem execute_follows_parity_witness :
    ∃ c r, populate_command (Nat.iterate catchSIGTSTP 1 initialSignalState).SIGTSTPcount
          (freshCommand "ls &\n".toList) = some c ∧
      execute c emptyRegistry 4000 (some 0) = some (Outcome.returned r) ∧
      argv r.input = ["ls".toList].map some ∧
      (1 % 2 = 0 →
        argv c = (["ls".toList] ++ [['&']]).map some ∧ r.background = true ∧
        r.reg.num_background_proc = emptyRegistry.num_background_proc + 1 ∧
        r.reg.background_PIDS emptyRegistry.num_background_proc = 4000) ∧
      (1 % 2 = 1 →
        argv c = ["ls".toList].map some ∧ r.background = false ∧ r.input = c ∧
        r.reg = emptyRegistry) :=
  execute_follows_parity 1 (freshCommand "ls &\n".toList) "ls &".toList ["ls".toList]
    "ls".toList emptyRegistry 4000 (some 0) rfl rfl (by decide) (by decide) (by decide)
    (by decide) (by decide) (by decide) (by decide)

/-- Claim C3, evaluation at the failing input. After one delivery of the stop
signal (the foreground-only mode) the line `ls & &`, whose final token is `&`,
loses one `&` only in `populate_command`; `execute` tests the last remaining
argument, finds `&` and calls `background_command`: the child (pid 4000) is
recorded in the registry and not waited for. The line `ls &` in the same mode
is run by `foreground_command` and the registry stays empty. -/
theorem foreground_only_still_backgrounds :
    ((populate_command (Nat.iterate catchSIGTSTP 1 initialSignalState).SIGTSTPcount
        (freshCommand "ls & &\n".toList)).bind
      (fun c => (execute c emptyRegistry 4000 (some 0)).map
        (fun o => match o with
          | Outcome.returned r => (argv c, r.background, argv r.input, r.reg.tracked)
          | Outcome.exits _ => (argv c, false, [], []))))
      = some ([some "ls".toList, some "&".toList], true, [some "ls".toList], [4000]) ∧
    ((populate_command (Nat.iterate catchSIGTSTP 1 initialSignalState).SIGTSTPcount
        (freshCommand "ls &\n".toList)).bind
      (fun c => (execute c emptyRegistry 4000 (some 0)).map
        (fun o => match o with
          | Outcome.returned r => (argv c, r.background, argv r.input, r.reg.tracked)
          | Outcome.exits _ => (argv c, true, [], []))))
      = some ([some "ls".toList], false, [some "ls".toList], []) :=
  ⟨by decide, by decide⟩

/-! ### Facts about the status of a foreground child -/

/-- Claim C4, as amended. When the fork succeeded, the status returned by
`foreground_command` and printed by `status_execute` after an external command
(`last_cmd = 1`) is: `exit value N` for a child that exited with code `N` equal
to 0 or 1 (raw status `N * 256`); `terminated by signal N` for a child killed by
signal `N` with `1 < N < 256` (raw status `N`); and also `terminated by signal N`
for a child that exited with a code `N` from 2 to 255. -/
theorem foreground_status_report (input : command) (reg : Registry) (spawnPid N : Int)
    (hfork : spawnPid ≠ -1) :
    ((N = 0 ∨ N = 1) →
      ∃ r, foreground_command input reg spawnPid (some (N * 256)) = Outcome.returned r ∧
        r.status = N ∧
        status_execute r.status 1 = ["exit value " ++ toString N ++ "\n"]) ∧
    ((1 < N ∧ N < 256) →
      ∃ r, foreground_command input reg spawnPid (some N) = Outcome.returned r ∧
        r.status = N ∧
        status_execute r.status 1 = ["terminated by signal " ++ toString N ++ "\n"]) ∧
    ((2 ≤ N ∧ N ≤ 255) →
      ∃ r, foreground_command input reg spawnPid (some (N * 256)) = Outcome.returned r ∧
        r.status = N ∧
        status_execute r.status 1 = ["terminated by signal " ++ toString N ++ "\n"]) := by
  refine ⟨?_, ?_, ?_⟩
  · intro h
    unfold foreground_command
    rw [if_neg hfork]
    refine ⟨_, rfl, ?_⟩
    rcases h with h | h <;> subst h <;> exact ⟨rfl, rfl⟩
  · intro h
    unfold foreground_command
    rw [if_neg hfork]
    refine ⟨_, rfl, ?_⟩
    simp only [Option.getD_some]
    have h1 : ¬ (N ≥ 256) := by omega
    rw [if_neg h1]
    refine ⟨rfl, ?_⟩
    unfold status_execute
    rw [if_pos (by decide), if_pos (by omega)]
  · intro h
    unfold foreground_command
    rw [if_neg hfork]
    refine ⟨_, rfl, ?_⟩
    simp only [Option.getD_some]
    have h1 : N * 256 ≥ 256 := by omega
    have h2 : (N * 256).tdiv 256 = N := by
      rw [Int.tdiv_eq_ediv (by omega) (by omega)]
      omega
    rw [if_pos h1, h2]
    refine ⟨rfl, ?_⟩
    unfold status_execute
    rw [if_pos (by decide), if_pos (by omega)]

/-- Witness of `foreground_status_report`, at the signal 15 and the exit codes
0 and 15. -/
theorem foreground_status_report_witness :
    (∃ r, foreground_command (freshCommand []) emptyRegistry 4000 (some (0 * 256))
          = Outcome.returned r ∧ r.status = 0 ∧
        status_execute r.status 1 = ["exit value " ++ toString (0 : Int) ++ "\n"]) ∧
    (∃ r, foreground_command (freshCommand []) emptyRegistry 4000 (some 15)
          = Outcome.returned r ∧ r.status = 15 ∧
        status_execute r.status 1
          = ["terminated by signal " ++ toString (15 : Int) ++ "\n"]) ∧
    (∃ r, foreground_command (freshCommand []) emptyRegistry 4000 (some (15 * 256))
          = Outcome.returned r ∧ r.status = 15 ∧
        status_execute r.status 1
          = ["terminated by signal " ++ toString (15 : Int) ++ "\n"]) :=
  ⟨(foreground_status_report (freshCommand []) emptyRegistry 4000 0 (by decide)).1
      (Or.inl rfl),
    (foreground_status_report (freshCommand []) emptyRegistry 4000 15 (by decide)).2.1
      (by decide),
    (foreground_status_report (freshCommand []) emptyRegistry 4000 15 (by decide)).2.2
      (by decide)⟩

/-- Claim C4, counterexample. A foreground child that exits normally with
code 2 (raw wait status 512) gives the status 2, which `status_execute` reports
as `terminated by signal 2`, not as `exit value 2`. -/
theorem exit_code_two_reported_as_signal :
    (match foreground_command (freshCommand []) emptyRegistry 4000 (some (2 * 256)) with
      | Outcome.returned r => (r.status, r.printed, status_execute r.status 1)
      | Outcome.exits _ => (0, [], []))
      = (2, ["terminated by signal 2\n"], ["terminated by signal 2\n"]) := by
  decide

/-! ### Facts about the registry poll and the loop of `prompt` -/

theorem shiftDown_total : ∀ (rounds : Nat) (j : Int) (pids : Int → Int),
    0 ≤ j → j + rounds < MAX_BACKGROUND → ∃ pids2, shiftDown rounds j pids = some pids2
  | 0, _, pids, _, _ => ⟨pids, rfl⟩
  | rounds + 1, j, pids, hj, hb => by
    unfold shiftDown
    have hb2 : j + 1 < MAX_BACKGROUND := by
      push_cast at hb
      omega
    rw [if_pos ⟨hj, hb2⟩]
    exact shiftDown_total rounds (j + 1) _ (by omega) (by push_cast at hb; omega)

/-- A rule for the loop of `check_background_processes`: a property kept by
every round holds of the result. -/
theorem checkLoop_rule (nohang : Int → Option Int) (P : Polled → Prop)
    (hnone : ∀ (i : Int) (p : Polled), 0 ≤ i → i < p.reg.num_background_proc →
      nohang (p.reg.background_PIDS i) = none → P p →
      P { p with waits := p.waits ++ [(p.reg.background_PIDS i, none)] })
    (hsome : ∀ (i : Int) (p : Polled) (status : Int) (pids : Int → Int), 0 ≤ i →
      i < p.reg.num_background_proc →
      nohang (p.reg.background_PIDS i) = some status → P p →
      P { reg := { background_PIDS := pids
                   num_background_proc := p.reg.num_background_proc - 1 }
          printed := p.printed ++ [backgroundReport (p.reg.background_PIDS i) status]
          waits := p.waits ++ [(p.reg.background_PIDS i, some status)] }) :
    ∀ (fuel : Nat) (i : Int) (p p2 : Polled), 0 ≤ i →
      checkLoop nohang fuel i p = some p2 → P p → P p2
  | 0, _, _, _, _, h, _ => by simp [checkLoop] at h
  | fuel + 1, i, p, p2, hi, h, hp => by
    unfold checkLoop at h
    by_cases hlt : i < p.reg.num_background_proc
    · rw [if_pos hlt] at h
      by_cases hb : 0 ≤ i ∧ i < MAX_BACKGROUND
      · rw [if_pos hb] at h
        simp only [] at h
        cases hw : nohang (p.reg.background_PIDS i) with
        | none =>
          rw [hw] at h
          exact checkLoop_rule nohang P hnone hsome fuel (i + 1) _ p2 (by omega) h
            (hnone i p hi hlt hw hp)
        | some status =>
          rw [hw] at h
          simp only [] at h
          cases hs : shiftDown (p.reg.num_background_proc - i).toNat i p.reg.background_PIDS with
          | none =>
            rw [hs] at h
            simp at h
          | some pids =>
            rw [hs] at h
            exact checkLoop_rule nohang P hnone hsome fuel (i + 1) _ p2 (by omega) h
              (hsome i p status pids hi hlt hw hp)
      · rw [if_neg hb] at h
        simp at h
    · rw [if_neg hlt] at h
      simp only [Option.some.injEq] at h
      rw [← h]
      exact hp

theorem checkLoop_total (nohang : Int → Option Int) :
    ∀ (fuel : Nat) (i : Int) (p : Polled), 0 ≤ i →
      p.reg.num_background_proc < MAX_BACKGROUND →
      (p.reg.num_background_proc - i).toNat < fuel →
      ∃ p2, checkLoop nohang fuel i p = some p2
  | 0, _, _, _, _, hf => by omega
  | fuel + 1, i, p, hi, hroom, hf => by
    unfold checkLoop
    by_cases hlt : i < p.reg.num_background_proc
    · rw [if_pos hlt, if_pos ⟨hi, by omega⟩]
      simp only []
      cases hw : nohang (p.reg.background_PIDS i) with
      | none =>
        exact checkLoop_total nohang fuel (i + 1) _ (by omega) hroom (by simp only []; omega)
      | some status =>
        simp only []
        obtain ⟨pids, hs⟩ := shiftDown_total (p.reg.num_background_proc - i).toNat i
          p.reg.background_PIDS hi (by rw [Int.toNat_of_nonneg (by omega)]; omega)
        rw [hs]
        exact checkLoop_total nohang fuel (i + 1) _ (by omega) (by simp only []; omega)
          (by simp only []; omega)
    · rw [if_neg hlt]
      exact ⟨p, rfl⟩

theorem check_background_processes_total (nohang : Int → Option Int) (reg : Registry)
    (hroom : reg.num_background_proc < MAX_BACKGROUND) :
    ∃ p, check_background_processes nohang reg = some p :=
  checkLoop_total nohang _ 0 _ (by omega) hroom (by simp only []; omega)

theorem check_background_processes_nonneg (nohang : Int → Option Int) (reg : Registry)
    (p : Polled) (h : check_background_processes nohang reg = some p)
    (h0 : 0 ≤ reg.num_background_proc) : 0 ≤ p.reg.num_background_proc :=
  checkLoop_rule nohang (fun q => 0 ≤ q.reg.num_background_proc)
    (fun _ _ _ _ _ hq => hq)
    (fun i q _ _ hi hlt _ _ => by simp only []; omega)
    _ 0 _ p (by omega) h h0

theorem reset_command_num_args (input input2 : command) (h : reset_command input = some input2) :
    input2.num_args = 0 := by
  unfold reset_command at h
  split_ifs at h
  simp only [Option.some.injEq] at h
  rw [← h]

theorem dispatch_status (env : Env) (s : Shell)
    (h : s.input.args 0 = some "status".toList) :
    dispatch env s = some (Round.next
      { s with out := s.out ++ status_execute s.last_status s.last_cmd, last_cmd := 0 }) := by
  unfold dispatch
  rw [h]
  simp only []
  rw [if_neg (by decide), if_neg (by decide)]
  exact if_pos trivial

theorem reset_command_total (input : command) (h : input.num_args ≤ MAX_ARGS) :
    ∃ input2, reset_command input = some input2 := by
  unfold reset_command
  rw [if_pos h]
  exact ⟨_, rfl⟩

theorem prompt_round_status (env : Env) (s : Shell) (h0 : s.input.num_args = 0)
    (hroom : s.reg.num_background_proc < MAX_BACKGROUND)
    (hline : env.line = "status\n".toList) :
    ∃ polled input3, check_background_processes env.nohang s.reg = some polled ∧
      prompt_round env s = some (Round.next
        { input := input3
          last_status := s.last_status
          last_cmd := 0
          reg := polled.reg
          sig := Nat.iterate catchSIGTSTP env.signals s.sig
          out := s.out ++ polled.printed ++ [": "]
            ++ status_execute s.last_status s.last_cmd }) := by
  obtain ⟨polled, hc⟩ := check_background_processes_total env.nohang s.reg hroom
  have hpop := populate_command_eq
    (Nat.iterate catchSIGTSTP env.signals s.sig).SIGTSTPcount
    { s.input with command_line := "status\n".toList } [] "status\n".toList h0
    (by show ("status\n".toList).getLast? ≠ some ' '; decide)
    (by show spaceWords "status\n".toList = [] ++ ["status\n".toList]; decide)
    (by decide) (by decide)
  rw [if_neg (fun h => absurd h.2 (by decide))] at hpop
  obtain ⟨c, hpop2, hc0, hcn⟩ : ∃ c, populate_command
      (Nat.iterate catchSIGTSTP env.signals s.sig).SIGTSTPcount
      { s.input with command_line := "status\n".toList } = some c ∧
      c.args 0 = some "status".toList ∧ c.num_args = 1 := ⟨_, hpop, rfl, rfl⟩
  obtain ⟨input3, hr⟩ := reset_command_total c (by rw [hcn]; decide)
  refine ⟨polled, input3, hc, ?_⟩
  unfold prompt_round
  rw [hc]
  simp only [hline]
  rw [if_neg (by decide)]
  simp only [hpop2]
  rw [dispatch_status env _ hc0]
  simp only [hr]

theorem dispatch_frame (env : Env) (s s2 : Shell)
    (h : dispatch env s = some (Round.next s2)) :
    s2.last_status = s.last_status ∨ s2.last_cmd = 1 := by
  unfold dispatch at h
  split at h
  · simp at h
  · split_ifs at h
    · split at h <;> simp at h
    · split at h
      · simp at h
      · simp only [Option.some.injEq, Round.next.injEq] at h
        rw [← h]
        exact Or.inl rfl
    · simp only [Option.some.injEq, Round.next.injEq] at h
      rw [← h]
      exact Or.inl rfl
    · split at h
      · simp at h
      · simp at h
      · simp only [Option.some.injEq, Round.next.injEq] at h
        rw [← h]
        exact Or.inr rfl
    · simp only [Option.some.injEq, Round.next.injEq] at h
      rw [← h]
      exact Or.inl rfl

/-- Claim C6, evaluation at the failing input. With the three pids 101, 102,
103 registered in this order and all three children terminated (raw status 0),
one call of `check_background_processes` waits on 101 and 103 only, reports
these two, and leaves 102 in the registry with count 1. -/
theorem check_skips_entry_after_removal :
    (check_background_processes (fun _ => some 0) threeJobs).map
        (fun p => (p.reg.tracked, p.reg.num_background_proc))
        = some ([102], 1) ∧
      (check_background_processes (fun _ => some 0) threeJobs).map (fun p => p.printed)
        = some ["background pid 101 is done: exit value 0\n",
                "background pid 103 is done: exit value 0\n"] ∧
      (check_background_processes (fun _ => some 0) threeJobs).map (fun p => p.waits)
        = some [(101, some 0), (103, some 0)] := by
  decide

theorem reaped_append_none (waits : List (Int × Option Int)) (pid : Int) :
    reaped (waits ++ [(pid, none)]) = reaped waits := by
  simp [reaped, List.filterMap_append]

theorem reaped_append_some (waits : List (Int × Option Int)) (pid status : Int) :
    reaped (waits ++ [(pid, some status)]) = reaped waits ++ [(pid, status)] := by
  simp [reaped, List.filterMap_append]

/-- The report lines of the poll for the raw statuses below 128. For every
registry with fewer than 30 entries,
`check_background_processes` returns, and it prints exactly one line for every
tracked pid `P` its non-blocking wait found terminated, in the order of the
waits: `background pid P is done: exit value 0` when the child exited normally
with code 0 (raw status 0), and `background pid P is done: terminated by signal N`
when the child was terminated by signal `N` with `1 < N < 128` (raw status `N`). -/
theorem background_report_lines (nohang : Int → Option Int) (reg : Registry)
    (hroom : reg.num_background_proc < MAX_BACKGROUND) :
    ∃ p, check_background_processes nohang reg = some p ∧
      p.printed.length = (reaped p.waits).length ∧
      ∀ (k : Nat) (P status : Int), (reaped p.waits)[k]? = some (P, status) →
        nohang P = some status ∧
        (status = 0 →
          p.printed[k]? = some ("background pid " ++ toString P ++ " is done: exit value 0\n")) ∧
        ((1 < status ∧ status < 128) →
          p.printed[k]? = some ("background pid " ++ toString P
            ++ " is done: terminated by signal " ++ toString status ++ "\n")) := by
  obtain ⟨p, hp⟩ := check_background_processes_total nohang reg hroom
  have hinv := checkLoop_rule nohang
    (fun q => q.printed = (reaped q.waits).map (fun w => backgroundReport w.1 w.2) ∧
      ∀ w ∈ reaped q.waits, nohang w.1 = some w.2)
    (fun i q _ _ _ hq => by
      simp only [reaped_append_none]
      exact hq)
    (fun i q status pids _ _ hw hq => by
      simp only [reaped_append_some, List.map_append, List.map_cons, List.map_nil]
      refine ⟨by rw [hq.1], ?_⟩
      intro w hmem
      rcases List.mem_append.mp hmem with h | h
      · exact hq.2 w h
      · simp only [List.mem_singleton] at h
        rw [h]
        exact hw)
    _ 0 _ p (le_refl _) hp ⟨rfl, fun w hw => by simp [reaped] at hw⟩
  refine ⟨p, hp, by rw [hinv.1, List.length_map], ?_⟩
  intro k P status hk
  have hline : p.printed[k]? = some (backgroundReport P status) := by
    rw [hinv.1, List.getElem?_map, hk]
    rfl
  refine ⟨hinv.2 (P, status) (List.mem_iff_getElem?.mpr ⟨k, hk⟩), ?_, ?_⟩
  · intro h0
    rw [hline, h0]
    unfold backgroundReport
    rw [if_neg (by decide), String.append_assoc, String.append_assoc]
    rfl
  · intro hsig
    rw [hline]
    unfold backgroundReport
    rw [if_pos hsig.1]

/-- Witness of `background_report_lines`, at the registry of three pids. -/
theorem background_report_lines_witness :
    ∃ p, check_background_processes (fun _ => some 15) threeJobs = some p ∧
      p.printed.length = (reaped p.waits).length ∧
      ∀ (k : Nat) (P status : Int), (reaped p.waits)[k]? = some (P, status) →
        (fun _ => some 15 : Int → Option Int) P = some status ∧
        (status = 0 →
          p.printed[k]? = some ("background pid " ++ toString P ++ " is done: exit value 0\n")) ∧
        ((1 < status ∧ status < 128) →
          p.printed[k]? = some ("background pid " ++ toString P
            ++ " is done: terminated by signal " ++ toString status ++ "\n")) :=
  background_report_lines (fun _ => some 15) threeJobs (by decide)

/-- Claim C7, evaluation at the failing input. A tracked child (pid 101) that
exited normally with code 1 (raw wait status 256) is reported by
`check_background_processes` as `terminated by signal 256`, not as
`exit value 1`: the raw status is classified and printed without the division
by 256. For the same raw status `foreground_command` returns 1, which
`status_execute` reports as `exit value 1`. -/
theorem background_exit_one_reported_as_signal :
    (check_background_processes (fun _ => some (1 * 256)) oneJob).map (fun p => p.printed)
      = some ["background pid 101 is done: terminated by signal 256\n"] ∧
    (match foreground_command (commandOf ["false".toList]) emptyRegistry 4000
        (some (1 * 256)) with
      | Outcome.returned r => status_execute r.status 1
      | Outcome.exits _ => [])
      = ["exit value 1\n"] :=
  ⟨by decide, by decide⟩

/-! ### Facts about the redirections of a child -/

theorem redirectScan_suffix (os : ChildOS) (hd0 : os.dup2 0 = true) (hd1 : os.dup2 1 = true) :
    ∀ (suffix : List (List Char)) (fuel : Nat) (i : Int) (st : ChildState),
      1 ≤ i → (∀ k : Nat, k ≤ suffix.length → st.input.args (i + k) = suffix[k]?) →
      i + suffix.length < MAX_ARGS → suffix.length < fuel →
      targetsOpen os suffix = true →
      redirectScan os fuel i st = some (ChildOutcome.exec
        { st with stdout := scanStream ['>'] suffix st.stdout
                  stdin := scanStream ['<'] suffix st.stdin
                  redirection := st.redirection || suffix.any isRedirect })
  | _, 0, _, _, _, _, _, hf, _ => by omega
  | [], fuel + 1, i, st, hi, hargs, hcap, _, _ => by
    have h0 := hargs 0 (le_refl _)
    simp only [Nat.cast_zero, add_zero, List.getElem?_nil] at h0
    unfold redirectScan
    simp only [List.length_nil, Nat.cast_zero, add_zero] at hcap
    rw [if_pos ⟨by omega, hcap⟩, h0]
    simp [scanStream]
  | [a], fuel + 1, i, st, hi, hargs, hcap, hf, ht => by
    have h0 := hargs 0 (by simp)
    simp only [Nat.cast_zero, add_zero, List.getElem?_cons_zero] at h0
    have hna : a ≠ ['>'] ∧ a ≠ ['<'] := by
      simpa [targetsOpen, isRedirect] using ht
    simp only [List.length_singleton, Nat.cast_one] at hcap
    unfold redirectScan
    rw [if_pos ⟨by omega, by omega⟩, h0]
    simp only [hna.1, hna.2, false_and, if_false]
    have ih := redirectScan_suffix os hd0 hd1 [] fuel (i + 1) st (by omega)
      (fun k hk => by
        have hk0 : k = 0 := by simpa using hk
        subst hk0
        have := hargs 1 (by simp)
        simpa using this)
      (by simp; omega) (by simpa using hf) rfl
    rw [ih]
    simp [scanStream, isRedirect, hna.1, hna.2]
  | a :: b :: rest, fuel + 1, i, st, hi, hargs, hcap, hf, ht => by
    have h0 := hargs 0 (by simp)
    simp only [Nat.cast_zero, add_zero, List.getElem?_cons_zero] at h0
    have h1 := hargs 1 (by simp)
    simp only [Nat.cast_one, List.getElem?_cons_succ, List.getElem?_cons_zero] at h1
    simp only [List.length_cons, Nat.cast_add, Nat.cast_one] at hcap
    simp only [targetsOpen, Bool.and_eq_true, Bool.or_eq_true, decide_eq_true_eq] at ht
    obtain ⟨⟨hout, hin⟩, hrest⟩ := ht
    have hi0 : i ≠ 0 := by omega
    have hargs2 : ∀ (st2 : ChildState), st2.input = st.input →
        ∀ k : Nat, k ≤ (b :: rest).length → st2.input.args (i + 1 + k) = (b :: rest)[k]? := by
      intro st2 hst k hk
      have := hargs (k + 1) (by simp at hk ⊢; omega)
      rw [hst]
      simp only [Nat.cast_add, Nat.cast_one, List.getElem?_cons_succ] at this
      rw [← this]
      congr 1
      omega
    have hcap2 : i + 1 + ((b :: rest).length : Int) < MAX_ARGS := by
      simp only [List.length_cons, Nat.cast_add, Nat.cast_one]
      omega
    have hf2 : (b :: rest).length < fuel := by
      simp only [List.length_cons] at hf ⊢
      omega
    unfold redirectScan
    rw [if_pos ⟨by omega, by omega⟩, h0]
    by_cases ha : a = ['>']
    · have hc : os.open_create b = true := by
        rcases hout with h | h
        · exact absurd ha h
        · exact h
      have hna : a ≠ ['<'] := by rw [ha]; decide
      simp only [ha, hi0, ne_eq, not_false_eq_true, and_self, if_true, h1, hc, hd1,
        show (['>'] : List Char) ≠ ['<'] by decide, false_and, if_false,
        show i + 1 < MAX_ARGS by omega]
      rw [redirectScan_suffix os hd0 hd1 (b :: rest) fuel (i + 1)
        { st with stdout := Stream.file b, redirection := true } (by omega)
        (hargs2 _ rfl) hcap2 hf2 hrest]
      simp [scanStream, isRedirect]
    · by_cases hb : a = ['<']
      · have hc : os.open_read b = true := by
          rcases hin with h | h
          · exact absurd hb h
          · exact h
        simp only [hb, hi0, ne_eq, not_false_eq_true, and_self, if_true, h1, hc, hd0,
          show (['<'] : List Char) ≠ ['>'] by decide, false_and, if_false,
          show i + 1 < MAX_ARGS by omega]
        rw [redirectScan_suffix os hd0 hd1 (b :: rest) fuel (i + 1)
          { st with stdin := Stream.file b, redirection := true } (by omega)
          (hargs2 _ rfl) hcap2 hf2 hrest]
        simp [scanStream, isRedirect]
      · simp only [ha, hb, false_and, if_false]
        rw [redirectScan_suffix os hd0 hd1 (b :: rest) fuel (i + 1) st (by omega)
          (hargs2 st rfl) hcap2 hf2 hrest]
        simp [scanStream, isRedirect, ha, hb]

theorem redirectScan_start (os : ChildOS) (hd0 : os.dup2 0 = true) (hd1 : os.dup2 1 = true)
    (input : command) (name : List Char) (rest : List (List Char))
    (hargs : holdsArgs input (name :: rest))
    (hcap : ((name :: rest).length : Int) < MAX_ARGS)
    (hopen : targetsOpen os rest = true) :
    redirectScan os 513 0
        { input := input, stdin := Stream.inherited, stdout := Stream.inherited,
          redirection := false }
      = some (ChildOutcome.exec
          { input := input
            stdin := scanStream ['<'] rest Stream.inherited
            stdout := scanStream ['>'] rest Stream.inherited
            redirection := rest.any isRedirect }) := by
  have h0 := hargs 0 (by simp)
  simp only [Nat.cast_zero, List.getElem?_cons_zero] at h0
  simp only [List.length_cons, Nat.cast_add, Nat.cast_one] at hcap
  show redirectScan os (512 + 1) 0 _ = _
  unfold redirectScan
  rw [if_pos ⟨le_refl _, by decide⟩]
  simp only [h0, ne_eq, not_true_eq_false, and_false, if_false]
  rw [redirectScan_suffix os hd0 hd1 rest 512 (0 + 1) _ (by omega)
    (fun k hk => by
      have := hargs (k + 1) (by simp; omega)
      simp only [Nat.cast_add, Nat.cast_one, List.getElem?_cons_succ] at this
      rw [← this]
      show input.args _ = input.args _
      congr 1
      omega)
    (by omega) (by have : MAX_ARGS = 512 := rfl; omega) hopen]
  simp

theorem removeFind_spec (input : command) :
    ∀ (suffix : List (List Char)) (fuel : Nat) (i : Int), 0 ≤ i →
      (∀ k : Nat, k ≤ suffix.length → input.args (i + k) = suffix[k]?) →
      i + suffix.length < MAX_ARGS → suffix.length < fuel →
      suffix.any isRedirect = true →
      removeFind input fuel i
        = some (i + ((suffix.takeWhile (fun a => !isRedirect a)).length : Int))
  | _, 0, _, _, _, _, hf, _ => by omega
  | [], _ + 1, _, _, _, _, _, hany => by simp at hany
  | a :: rest, fuel + 1, i, hi, hargs, hcap, hf, hany => by
    have h0 := hargs 0 (by simp)
    simp only [Nat.cast_zero, add_zero, List.getElem?_cons_zero] at h0
    simp only [List.length_cons, Nat.cast_add, Nat.cast_one] at hcap
    unfold removeFind
    rw [if_pos ⟨hi, by omega⟩, h0]
    simp only []
    cases ha : isRedirect a with
    | true =>
      have hor : ¬ (a ≠ ['>'] ∧ a ≠ ['<']) := by
        simp only [isRedirect, Bool.or_eq_true, decide_eq_true_eq] at ha
        tauto
      rw [if_neg hor]
      simp [ha]
    | false =>
      have hand : a ≠ ['>'] ∧ a ≠ ['<'] := by
        simp only [isRedirect, Bool.or_eq_false_iff, decide_eq_false_iff_not] at ha
        exact ha
      rw [if_pos hand]
      have hany2 : rest.any isRedirect = true := by
        simpa [ha] using hany
      rw [removeFind_spec input rest fuel (i + 1) (by omega)
        (fun k hk => by
          have := hargs (k + 1) (by simp; omega)
          simp only [Nat.cast_add, Nat.cast_one, List.getElem?_cons_succ] at this
          rw [← this]
          congr 1
          omega)
        (by omega) (by simp at hf; omega) hany2]
      simp only [List.takeWhile_cons, ha, Bool.not_false, if_true, List.length_cons,
        Nat.cast_add, Nat.cast_one, Option.some.injEq]
      omega

theorem removeClear_spec :
    ∀ (suffix : List (List Char)) (fuel : Nat) (i : Int) (input : command), 0 ≤ i →
      (∀ k : Nat, k ≤ suffix.length → input.args (i + k) = suffix[k]?) →
      i + suffix.length < MAX_ARGS → suffix.length < fuel →
      removeClear fuel i input
        = some { input with
                 args := fun j => if i ≤ j ∧ j < i + suffix.length then none else input.args j
                 num_args := input.num_args - suffix.length }
  | _, 0, _, _, _, _, _, hf => by omega
  | [], fuel + 1, i, input, hi, hargs, hcap, _ => by
    have h0 := hargs 0 (by simp)
    simp only [Nat.cast_zero, add_zero, List.getElem?_nil] at h0
    simp only [List.length_nil, Nat.cast_zero, add_zero] at hcap
    unfold removeClear
    rw [if_pos ⟨hi, hcap⟩, h0]
    cases input
    simp only [List.length_nil, Nat.cast_zero, add_zero, sub_zero, Option.some.injEq,
      command.mk.injEq, true_and]
    funext j
    rw [if_neg (by omega)]
  | a :: rest, fuel + 1, i, input, hi, hargs, hcap, hf => by
    have h0 := hargs 0 (by simp)
    simp only [Nat.cast_zero, add_zero, List.getElem?_cons_zero] at h0
    simp only [List.length_cons, Nat.cast_add, Nat.cast_one] at hcap
    unfold removeClear
    rw [if_pos ⟨hi, by omega⟩, h0]
    simp only []
    rw [removeClear_spec rest fuel (i + 1) _ (by omega)
      (fun k hk => by
        have := hargs (k + 1) (by simp; omega)
        simp only [Nat.cast_add, Nat.cast_one, List.getElem?_cons_succ] at this
        rw [← this]
        simp only []
        rw [Function.update_noteq (by omega)]
        congr 1
        omega)
      (by omega) (by simp at hf; omega)]
    simp only [List.length_cons, Nat.cast_add, Nat.cast_one, Option.some.injEq,
      command.mk.injEq, true_and]
    refine ⟨by omega, ?_⟩
    funext j
    by_cases hj : j = i
    · subst hj
      rw [if_neg (by omega), Function.update_same, if_pos ⟨le_refl _, by omega⟩]
    · rw [Function.update_noteq hj]
      by_cases hr : i + 1 ≤ j ∧ j < i + 1 + rest.length
      · rw [if_pos hr, if_pos ⟨by omega, by omega⟩]
      · rw [if_neg hr, if_neg (by omega)]

theorem takeWhile_getElem? {α : Type} (p : α → Bool) :
    ∀ (l : List α) (j : Nat), j < (l.takeWhile p).length → (l.takeWhile p)[j]? = l[j]?
  | [], _, h => by simp at h
  | a :: rest, j, h => by
    cases hp : p a with
    | false => simp [List.takeWhile_cons, hp] at h
    | true =>
      simp only [List.takeWhile_cons, hp, if_true, List.length_cons] at h ⊢
      cases j with
      | zero => simp
      | succ j =>
        simp only [List.getElem?_cons_succ]
        exact takeWhile_getElem? p rest j (by omega)

theorem takeWhile_length_lt_of_any {α : Type} (p : α → Bool) :
    ∀ l : List α, l.any p = true → (l.takeWhile (fun a => !p a)).length < l.length
  | [], h => by simp at h
  | a :: rest, h => by
    cases hp : p a with
    | true => simp [List.takeWhile_cons, hp]
    | false =>
      have := takeWhile_length_lt_of_any p rest (by simpa [hp] using h)
      simp only [List.takeWhile_cons, hp, Bool.not_false, if_true, List.length_cons]
      omega

theorem getElem?_takeWhile_length {α : Type} (p : α → Bool) :
    ∀ l : List α, l.any p = true →
      ∃ a, l[(l.takeWhile (fun a => !p a)).length]? = some a ∧ p a = true
  | [], h => by simp at h
  | a :: rest, h => by
    cases hp : p a with
    | true => exact ⟨a, by simp [List.takeWhile_cons, hp], hp⟩
    | false =>
      obtain ⟨b, hb, hpb⟩ := getElem?_takeWhile_length p rest (by simpa [hp] using h)
      exact ⟨b, by simpa [List.takeWhile_cons, hp] using hb, hpb⟩

/-- What `remove_redirection` does with a null-terminated argument list that
contains a redirection operator: the slots from the first operator (searched
from index 0) up to the end are cleared and the count shrinks accordingly. -/
theorem remove_redirection_spec (input : command) (toks : List (List Char))
    (hargs : holdsArgs input toks) (hcap : (toks.length : Int) < MAX_ARGS)
    (hany : toks.any isRedirect = true) :
    remove_redirection input
      = some { input with
               args := fun j =>
                 if ((toks.takeWhile (fun a => !isRedirect a)).length : Int) ≤ j
                    ∧ j < (toks.length : Int) then none
                 else input.args j
               num_args := input.num_args
                 - ((toks.length - (toks.takeWhile (fun a => !isRedirect a)).length : Nat) : Int) } := by
  have hlt := takeWhile_length_lt_of_any isRedirect toks hany
  unfold remove_redirection
  rw [removeFind_spec input toks 513 0 (le_refl _)
    (fun k hk => by simpa using hargs k hk) (by omega)
    (by have : MAX_ARGS = 512 := rfl; omega) hany]
  simp only [zero_add]
  rw [removeClear_spec (toks.drop (toks.takeWhile (fun a => !isRedirect a)).length) 513 _ input
    (by omega)
    (fun k hk => by
      simp only [List.length_drop] at hk
      have := hargs ((toks.takeWhile (fun a => !isRedirect a)).length + k) (by omega)
      rw [List.getElem?_drop, ← this]
      congr 1)
    (by simp only [List.length_drop]; omega)
    (by simp only [List.length_drop]; have : MAX_ARGS = 512 := rfl; omega)]
  simp only [List.length_drop, Option.some.injEq, command.mk.injEq, true_and]
  funext j
  by_cases hj : ((toks.takeWhile (fun a => !isRedirect a)).length : Int) ≤ j
      ∧ j < (toks.length : Int)
  · rw [if_pos hj, if_pos ⟨hj.1, by omega⟩]
  · rw [if_neg hj, if_neg (by omega)]

theorem argv_of_prefix (c : command) (toks : List (List Char)) (n : Nat)
    (hnum : c.num_args = n) (hlen : toks.length = n)
    (hargs : ∀ k : Nat, k < n → c.args (k : Int) = toks[k]?) :
    argv c = toks.map some := by
  unfold argv
  rw [hnum]
  apply List.ext_getElem?
  intro k
  simp only [Int.toNat_ofNat, List.getElem?_map]
  by_cases hk : k < n
  · rw [List.getElem?_range hk]
    simp only [Option.map_some']
    rw [hargs k hk, List.getElem?_eq_getElem (by omega)]
    rfl
  · rw [List.getElem?_eq_none (by simp; omega), List.getElem?_eq_none (by omega)]
    rfl

/-- Claim C9, as amended. Take a null-terminated argument list of fewer than
512 tokens whose count equals its number of tokens, whose token at index 0 is
not `>` or `<`, which has a `>` or `<` at an index >= 1, and in which every
operator at an index >= 1 is followed by a token naming a file that opens (the
calls of `dup2` succeeding). Then the child, of `foreground_command` and of
`background_command` alike, reaches `execvp` with the argument list equal to the
tokens before the first operator: the command name is kept, no remaining token
is `>` or `<`, `num_args` is the number of tokens kept and the slots behind
them are `NULL`. -/
theorem redirection_stripped (os : ChildOS) (input : command) (name : List Char)
    (rest : List (List Char))
    (hargs : holdsArgs input (name :: rest))
    (hnum : input.num_args = ((name :: rest).length : Int))
    (hcap : ((name :: rest).length : Int) < MAX_ARGS)
    (hname : isRedirect name = false) (hop : rest.any isRedirect = true)
    (hopen : targetsOpen os rest = true)
    (hd0 : os.dup2 0 = true) (hd1 : os.dup2 1 = true) :
    ∃ st, foreground_child os input = some (ChildOutcome.exec st) ∧
      background_child os input = some (ChildOutcome.exec st) ∧
      argv st.input = (name :: rest.takeWhile (fun a => !isRedirect a)).map some ∧
      st.input.num_args = ((rest.takeWhile (fun a => !isRedirect a)).length : Int) + 1 ∧
      st.input.args 0 = some name ∧
      (∀ a, some a ∈ argv st.input → isRedirect a = false) ∧
      (∀ j : Int, st.input.num_args ≤ j → j ≤ ((name :: rest).length : Int) →
        st.input.args j = none) := by
  have hscan := redirectScan_start os hd0 hd1 input name rest hargs hcap hopen
  have hany : (name :: rest).any isRedirect = true := by simp [hop]
  have hrem := remove_redirection_spec input (name :: rest) hargs hcap hany
  have htw : (name :: rest).takeWhile (fun a => !isRedirect a)
      = name :: rest.takeWhile (fun a => !isRedirect a) := by
    simp [List.takeWhile_cons, hname]
  have hlt := takeWhile_length_lt_of_any isRedirect rest hop
  rw [htw] at hrem
  simp only [List.length_cons, Nat.cast_add, Nat.cast_one] at hrem hnum hcap
  obtain ⟨c2, hrem2, hn2, ha2⟩ : ∃ c2, remove_redirection input = some c2 ∧
      c2.num_args = ((rest.takeWhile (fun a => !isRedirect a)).length : Int) + 1 ∧
      ∀ j : Int, c2.args j =
        if ((rest.takeWhile (fun a => !isRedirect a)).length : Int) + 1 ≤ j
           ∧ j < (rest.length : Int) + 1 then none
        else input.args j := by
    refine ⟨_, hrem, ?_, fun j => rfl⟩
    simp only [hnum]
    omega
  have hargv : argv c2 = (name :: rest.takeWhile (fun a => !isRedirect a)).map some := by
    apply argv_of_prefix _ _ ((rest.takeWhile (fun a => !isRedirect a)).length + 1)
    · rw [hn2]
      push_cast
      rfl
    · simp
    · intro k hk
      rw [ha2, if_neg (by omega)]
      have h1 := hargs k (by simp; omega)
      have h2 := takeWhile_getElem? (fun a => !isRedirect a) (name :: rest) k
        (by rw [htw]; simpa using hk)
      rw [htw] at h2
      rw [h1, h2]
  refine ⟨{ input := c2, stdin := scanStream ['<'] rest Stream.inherited,
            stdout := scanStream ['>'] rest Stream.inherited,
            redirection := rest.any isRedirect }, ?_, ?_, hargv, hn2, ?_, ?_, ?_⟩
  · unfold foreground_child
    rw [hscan]
    simp only [hop, if_true, hrem2]
  · unfold background_child
    rw [hscan]
    simp only [hop, if_true, hrem2]
  · show c2.args 0 = some name
    rw [ha2, if_neg (by omega)]
    simpa using hargs 0 (by simp)
  · intro a ha
    have hmem : a ∈ name :: rest.takeWhile (fun a => !isRedirect a) := by
      have ha3 : some a ∈ argv c2 := ha
      rw [hargv] at ha3
      simpa using ha3
    rcases List.mem_cons.mp hmem with h | h
    · rw [h]
      exact hname
    · have := List.mem_takeWhile_imp h
      simpa using this
  · intro j hj1 hj2
    have hj1b : c2.num_args ≤ j := hj1
    rw [hn2] at hj1b
    show c2.args j = none
    rw [ha2]
    by_cases hj : j < (rest.length : Int) + 1
    · rw [if_pos ⟨by omega, hj⟩]
    · rw [if_neg (by omega)]
      have hj3 : j = ((rest.length + 1 : Nat) : Int) := by
        simp only [List.length_cons, Nat.cast_add, Nat.cast_one] at hj2
        push_cast
        omega
      rw [hj3, hargs (rest.length + 1) (by simp)]
      simp

/-- Witness of `redirection_stripped`: `ls -l > out.txt`. -/
theorem redirection_stripped_witness :
    ∃ st, foreground_child permissiveOS
          (commandOf ["ls".toList, "-l".toList, ">".toList, "out.txt".toList])
        = some (ChildOutcome.exec st) ∧
      background_child permissiveOS
          (commandOf ["ls".toList, "-l".toList, ">".toList, "out.txt".toList])
        = some (ChildOutcome.exec st) ∧
      argv st.input = ("ls".toList ::
        ["-l".toList, ">".toList, "out.txt".toList].takeWhile (fun a => !isRedirect a)).map some ∧
      st.input.num_args = ((["-l".toList, ">".toList, "out.txt".toList].takeWhile
        (fun a => !isRedirect a)).length : Int) + 1 ∧
      st.input.args 0 = some "ls".toList ∧
      (∀ a, some a ∈ argv st.input → isRedirect a = false) ∧
      (∀ j : Int, st.input.num_args ≤ j →
        j ≤ ((("ls".toList :: ["-l".toList, ">".toList, "out.txt".toList]).length : Nat) : Int) →
        st.input.args j = none) :=
  redirection_stripped permissiveOS
    (commandOf ["ls".toList, "-l".toList, ">".toList, "out.txt".toList]) "ls".toList
    ["-l".toList, ">".toList, "out.txt".toList]
    (by unfold holdsArgs; decide) (by decide) (by decide) (by decide) (by decide) (by decide)
    rfl rfl

/-- Claim C9, counterexample. For the argument list `<`, `x`, `>`, `out`
(count 4), whose first operator at an index >= 1 is the `>` at index 2, the
scan binds the output to `out` and `remove_redirection`, searching from index 0,
clears every slot: the child calls `execvp` with no argument left and
`num_args = 0`, not with `<` and `x`. And for `ls`, `>` the child exits with
code 1 before reaching `execvp`. -/
theorem remove_redirection_clears_command_name :
    (foreground_child permissiveOS
        (commandOf ["<".toList, "x".toList, ">".toList, "out".toList])).map
      (fun o => match o with
        | ChildOutcome.exec st => (argv st.input, st.input.num_args, st.input.args 0, st.stdout)
        | ChildOutcome.exited _ _ => ([], -1, none, Stream.inherited))
      = some ([], 0, none, Stream.file "out".toList) ∧
    (foreground_child permissiveOS (commandOf ["ls".toList, ">".toList])).map
      (fun o => match o with
        | ChildOutcome.exec _ => none
        | ChildOutcome.exited code _ => some code)
      = some (some 1) := by
  decide

theorem scanStream_of_not_mem (op : List Char) :
    ∀ (l : List (List Char)) (s : Stream), op ∉ l → scanStream op l s = s
  | [], _, _ => rfl
  | [_], _, _ => rfl
  | a :: b :: rest, s, h => by
    have ha : a ≠ op := fun e => h (by simp [e])
    rw [scanStream, if_neg ha]
    exact scanStream_of_not_mem op (b :: rest) s (fun hm => h (List.mem_cons_of_mem a hm))

theorem scanStream_ne_devnull (op : List Char) :
    ∀ (l : List (List Char)) (s : Stream), s ≠ Stream.devnull →
      scanStream op l s ≠ Stream.devnull
  | [], _, h => h
  | [_], _, h => h
  | a :: b :: rest, s, h => by
    rw [scanStream]
    apply scanStream_ne_devnull op (b :: rest)
    split
    · exact fun e => Stream.noConfusion e
    · exact h

/-- The streams of a background child whose files open. Take a background
command (the argument list the
child inherits, null-terminated, fewer than 512 tokens) in which every
redirection operator at an index >= 1 is followed by a token naming a file that
opens, `/dev/null` opening too and the calls of `dup2` succeeding. The child
reaches `execvp`; if the command contains no redirection operator, both the
standard input and the standard output are bound to `/dev/null`; if it contains
one, each stream is bound to the file of its last operator, and a stream
without an operator keeps the inherited descriptor: it is not bound to
`/dev/null`. -/
theorem background_child_streams (os : ChildOS) (input : command) (name : List Char)
    (rest : List (List Char))
    (hargs : holdsArgs input (name :: rest))
    (hcap : ((name :: rest).length : Int) < MAX_ARGS)
    (hopen : targetsOpen os rest = true)
    (hd0 : os.dup2 0 = true) (hd1 : os.dup2 1 = true)
    (hnullr : os.open_read "/dev/null".toList = true)
    (hnullw : os.open_write "/dev/null".toList = true) :
    ∃ st, background_child os input = some (ChildOutcome.exec st) ∧
      (rest.any isRedirect = false →
        st.stdin = Stream.devnull ∧ st.stdout = Stream.devnull ∧ st.input = input) ∧
      (rest.any isRedirect = true →
        st.stdin = scanStream ['<'] rest Stream.inherited ∧
        st.stdout = scanStream ['>'] rest Stream.inherited ∧
        st.stdin ≠ Stream.devnull ∧ st.stdout ≠ Stream.devnull ∧
        (['<'] ∉ rest → st.stdin = Stream.inherited) ∧
        (['>'] ∉ rest → st.stdout = Stream.inherited)) := by
  have hscan := redirectScan_start os hd0 hd1 input name rest hargs hcap hopen
  cases hop : rest.any isRedirect with
  | false =>
    have hnone : ∀ a ∈ rest, isRedirect a = false := by
      intro a ha
      have := List.any_eq_false.mp hop a ha
      simpa using this
    have hin : scanStream ['<'] rest Stream.inherited = Stream.inherited :=
      scanStream_of_not_mem _ rest _ (fun hm => by
        have := hnone _ hm
        simp [isRedirect] at this)
    have hout : scanStream ['>'] rest Stream.inherited = Stream.inherited :=
      scanStream_of_not_mem _ rest _ (fun hm => by
        have := hnone _ hm
        simp [isRedirect] at this)
    refine ⟨{ input := input, stdin := Stream.devnull, stdout := Stream.devnull,
              redirection := false }, ?_, fun _ => ⟨rfl, rfl, rfl⟩, fun h => by simp at h⟩
    unfold background_child
    rw [hscan, hop, hin, hout]
    simp only [Bool.false_eq_true, if_false]
    unfold backgroundDefaults
    simp only [hnullr, hnullw, hd0, hd1, if_true]
  | true =>
    have hany : (name :: rest).any isRedirect = true := by simp [hop]
    obtain ⟨c2, hrem⟩ : ∃ c2, remove_redirection input = some c2 :=
      ⟨_, remove_redirection_spec input (name :: rest) hargs hcap hany⟩
    refine ⟨{ input := c2, stdin := scanStream ['<'] rest Stream.inherited,
              stdout := scanStream ['>'] rest Stream.inherited, redirection := true },
      ?_, fun h => by simp at h, fun _ => ⟨rfl, rfl, ?_, ?_, ?_, ?_⟩⟩
    · unfold background_child
      rw [hscan, hop]
      simp only [if_true, hrem]
    · exact scanStream_ne_devnull _ rest _ (fun e => Stream.noConfusion e)
    · exact scanStream_ne_devnull _ rest _ (fun e => Stream.noConfusion e)
    · exact fun h => scanStream_of_not_mem _ rest _ h
    · exact fun h => scanStream_of_not_mem _ rest _ h

/-- Witness of `background_child_streams`: `sleep 5` without redirection. -/
theorem background_child_streams_witness :
    ∃ st, background_child permissiveOS (commandOf ["sleep".toList, "5".toList])
          = some (ChildOutcome.exec st) ∧
      (["5".toList].any isRedirect = false →
        st.stdin = Stream.devnull ∧ st.stdout = Stream.devnull ∧
        st.input = commandOf ["sleep".toList, "5".toList]) ∧
      (["5".toList].any isRedirect = true →
        st.stdin = scanStream ['<'] ["5".toList] Stream.inherited ∧
        st.stdout = scanStream ['>'] ["5".toList] Stream.inherited ∧
        st.stdin ≠ Stream.devnull ∧ st.stdout ≠ Stream.devnull ∧
        (['<'] ∉ ["5".toList] → st.stdin = Stream.inherited) ∧
        (['>'] ∉ ["5".toList] → st.stdout = Stream.inherited)) :=
  background_child_streams permissiveOS (commandOf ["sleep".toList, "5".toList])
    "sleep".toList ["5".toList] (by unfold holdsArgs; decide) (by decide) (by decide)
    rfl rfl rfl rfl

/-- Claim C8, evaluation at the failing input. The background command
`cat > out` (every `open` succeeding) reaches `execvp` with the standard output
bound to `out` and the standard input still the inherited descriptor, not
`/dev/null`; and `cat < in` keeps the inherited standard output. The defaults
are applied only when the command has no redirection at all: `sleep 5` reaches
`execvp` with both streams bound to `/dev/null`. -/
theorem background_one_redirection_inherits_other :
    (background_child permissiveOS (commandOf ["cat".toList, ">".toList, "out".toList])).map
      (fun o => match o with
        | ChildOutcome.exec st => (st.stdin, st.stdout, argv st.input)
        | ChildOutcome.exited _ _ => (Stream.devnull, Stream.devnull, []))
      = some (Stream.inherited, Stream.file "out".toList, [some "cat".toList]) ∧
    (background_child permissiveOS (commandOf ["cat".toList, "<".toList, "in".toList])).map
      (fun o => match o with
        | ChildOutcome.exec st => (st.stdin, st.stdout, argv st.input)
        | ChildOutcome.exited _ _ => (Stream.devnull, Stream.devnull, []))
      = some (Stream.file "in".toList, Stream.inherited, [some "cat".toList]) ∧
    (background_child permissiveOS (commandOf ["sleep".toList, "5".toList])).map
      (fun o => match o with
        | ChildOutcome.exec st => (st.stdin, st.stdout, argv st.input)
        | ChildOutcome.exited _ _ => (Stream.inherited, Stream.inherited, []))
      = some (Stream.devnull, Stream.devnull, [some "sleep".toList, some "5".toList]) :=
  ⟨by decide, by decide, by decide⟩

/-! ### Facts about the status stored by the loop of `prompt` -/

theorem splitRuns_ne_nil (sep : Char → Bool) :
    ∀ (s : List Char) (w : List Char), w ∈ splitRuns sep s → w ≠ []
  | [], w, h => by simp [splitRuns] at h
  | c :: rest, w, h => by
    rw [splitRuns] at h
    split_ifs at h
    · exact splitRuns_ne_nil sep rest w h
    · rcases List.mem_cons.mp h with h1 | h1
      · rw [h1]
        simp
      · exact splitRuns_ne_nil sep rest w h1
    · split at h
      · simp only [List.mem_singleton] at h
        rw [h]
        simp
      · rename_i w0 ws hs
        rcases List.mem_cons.mp h with h1 | h1
        · rw [h1]
          simp
        · exact splitRuns_ne_nil sep rest w (by rw [hs]; exact List.mem_cons_of_mem _ h1)

theorem populate_command_ampersand (n : Int) (input : command) (body : List Char)
    (toks : List (List Char)) (h0 : input.num_args = 0)
    (hline : input.command_line = body ++ ['\n'])
    (hbody : body.getLast? = some '&') (hwords : spaceWords body = toks ++ [['&']])
    (hcap : (toks.length : Int) + 1 ≤ MAX_ARGS) :
    populate_command n input
      = some (if n.tmod 2 ≠ 0 then setArgs input (toks.map some ++ [none]) toks.length
              else setArgs input (toks.map some ++ [some ['&']]) (toks.length + 1)) := by
  obtain ⟨ws, w, h1, -, h2⟩ :=
    splitRuns_append_of_not_sep (· == ' ') '\n' (by decide) body '&' hbody (by decide)
  have hsw : spaceWords body = ws ++ [w] := h1
  rw [hwords] at hsw
  obtain ⟨hws, hw⟩ := List.append_inj' hsw rfl
  have hw2 : w = ['&'] := by simpa using hw.symm
  subst hws
  subst hw2
  have hlast : input.command_line.getLast? ≠ some ' ' := by
    rw [hline, List.getLast?_concat]
    decide
  have heq := populate_command_eq n input toks (['&'] ++ ['\n']) h0 hlast
    (by unfold spaceWords; rw [hline]; exact h2) (by simp) hcap
  rw [heq]
  have hdl : (['&'] ++ ['\n']).dropLast = ['&'] := by decide
  by_cases hodd : n.tmod 2 ≠ 0
  · rw [if_pos ⟨hodd, hdl⟩, if_pos hodd]
  · rw [if_neg (fun h => hodd h.1), if_neg hodd, hdl]

theorem execute_background (input : command) (toks : List (List Char)) (reg : Registry)
    (spawnPid : Int) (waited : Option Int)
    (hcap : (toks.length : Int) + 1 ≤ MAX_ARGS) (hfork : spawnPid ≠ -1)
    (hreg : 0 ≤ reg.num_background_proc ∧ reg.num_background_proc < MAX_BACKGROUND) :
    execute (setArgs input (toks.map some ++ [some ['&']]) (toks.length + 1)) reg spawnPid waited
      = some (Outcome.returned
          { input := setArgs input (toks.map some ++ [none]) toks.length
            reg := { background_PIDS :=
                       Function.update reg.background_PIDS reg.num_background_proc spawnPid
                     num_background_proc := reg.num_background_proc + 1 }
            status := (-5 : Int).tdiv 256
            printed := ["background process pid is " ++ toString spawnPid ++ "\n"]
            background := true }) := by
  have hlastArg := setArgs_args_last input (toks.map some) (some ['&']) (toks.length + 1)
  rw [List.length_map] at hlastArg
  have hupd := setArgs_update_last input (toks.map some) (some ['&']) none
    (toks.length + 1) toks.length
  rw [List.length_map] at hupd
  have hnum : (setArgs input (toks.map some ++ [some ['&']]) (toks.length + 1)).num_args
      = (toks.length : Int) + 1 := rfl
  have hidx : (toks.length : Int) + 1 - 1 = toks.length := by omega
  have hM : MAX_ARGS = 512 := rfl
  unfold execute
  rw [hnum, hidx, if_pos ⟨by omega, by omega⟩, hlastArg]
  simp only [if_true]
  unfold background_command
  rw [hnum, hidx, if_pos ⟨by omega, by omega⟩, if_neg hfork, if_pos hreg, hupd]
  rfl

theorem dispatch_external (env : Env) (s : Shell) (name : List Char) (r : Executed)
    (hname : s.input.args 0 = some name)
    (hext : name ≠ "exit".toList ∧ name ≠ "cd".toList ∧ name ≠ "status".toList
      ∧ name.head? ≠ some '#')
    (hne : name ≠ [])
    (hex : execute s.input s.reg env.fork env.waited = some (Outcome.returned r)) :
    dispatch env s = some (Round.next
      { s with input := r.input, reg := r.reg, out := s.out ++ r.printed
               last_status := r.status, last_cmd := 1 }) := by
  unfold dispatch
  rw [hname]
  simp only []
  rw [if_neg hext.1, if_neg hext.2.1, if_neg hext.2.2.1, if_pos ⟨hext.2.2.2, hne⟩, hex]

theorem check_background_processes_le (nohang : Int → Option Int) (reg : Registry)
    (p : Polled) (h : check_background_processes nohang reg = some p) :
    p.reg.num_background_proc ≤ reg.num_background_proc :=
  checkLoop_rule nohang (fun q => q.reg.num_background_proc ≤ reg.num_background_proc)
    (fun _ _ _ _ _ hq => hq)
    (fun i q _ _ _ _ _ hq => by simp only []; omega)
    _ 0 _ p (le_refl _) h (le_refl _)

/-- The status stored by a background launch. The status stored by the loop
of `prompt` is the
value returned by the most recent call of `execute`, which for a background
launch is 0. For every state of the loop (structure reset, registry not full)
with any stored status, and every line `body ++ "\n"` without `$$` whose tokens
are an external command name, its arguments and a final `&`, read in normal
mode with `fork` succeeding: the round launches the command in the background,
appends the child to the registry, and afterwards the stored status is 0 and
`last_cmd` is 1, so a `status` query in the next round prints `exit value 0`. -/
theorem background_launch_stores_zero (env : Env) (s : Shell) (body name : List Char)
    (rest : List (List Char))
    (h0 : s.input.num_args = 0)
    (hreg : 0 ≤ s.reg.num_background_proc ∧ s.reg.num_background_proc < MAX_BACKGROUND)
    (hline : env.line = body ++ ['\n']) (hnodollar : strstrDollars env.line = none)
    (hbody : body.getLast? = some '&')
    (hwords : spaceWords body = (name :: rest) ++ [['&']])
    (hcap : ((name :: rest).length : Int) + 1 ≤ MAX_ARGS)
    (hmode : (Nat.iterate catchSIGTSTP env.signals s.sig).SIGTSTPcount.tmod 2 = 0)
    (hext : name ≠ "exit".toList ∧ name ≠ "cd".toList ∧ name ≠ "status".toList
      ∧ name.head? ≠ some '#')
    (hfork : env.fork ≠ -1) :
    ∃ polled s2, check_background_processes env.nohang s.reg = some polled ∧
      prompt_round env s = some (Round.next s2) ∧
      s2.last_status = 0 ∧ s2.last_cmd = 1 ∧
      s2.reg.num_background_proc = polled.reg.num_background_proc + 1 ∧
      s2.reg.background_PIDS polled.reg.num_background_proc = env.fork ∧
      s2.out = s.out ++ polled.printed
        ++ [": ", "background process pid is " ++ toString env.fork ++ "\n"] ∧
      (∀ env2 : Env, env2.line = "status\n".toList →
        s2.reg.num_background_proc < MAX_BACKGROUND →
        ∃ polled2 s3, check_background_processes env2.nohang s2.reg = some polled2 ∧
          prompt_round env2 s2 = some (Round.next s3) ∧
          s3.out = s2.out ++ polled2.printed ++ [": ", "exit value 0\n"]) := by
  obtain ⟨polled, hc⟩ := check_background_processes_total env.nohang s.reg hreg.2
  have hp0 := check_background_processes_nonneg env.nohang s.reg polled hc hreg.1
  have hple := check_background_processes_le env.nohang s.reg polled hc
  have hne : name ≠ [] := by
    apply splitRuns_ne_nil (· == ' ') body name
    show name ∈ spaceWords body
    rw [hwords]
    simp
  have hpop := populate_command_ampersand
    (Nat.iterate catchSIGTSTP env.signals s.sig).SIGTSTPcount
    { s.input with command_line := body ++ ['\n'] } body (name :: rest) h0 rfl hbody hwords hcap
  rw [if_neg (fun h => h hmode)] at hpop
  have hex := execute_background { s.input with command_line := body ++ ['\n'] }
    (name :: rest) polled.reg env.fork env.waited hcap hfork ⟨hp0, by omega⟩
  have hname : (setArgs { s.input with command_line := body ++ ['\n'] }
      ((name :: rest).map some ++ [some ['&']]) (((name :: rest).length : Nat) + 1)).args 0
      = some name := by
    unfold setArgs
    simp only []
    rw [if_pos ⟨le_refl _, by simp; omega⟩]
    simp
  have hd := dispatch_external env
    { s with input := setArgs { s.input with command_line := body ++ ['\n'] }
               ((name :: rest).map some ++ [some ['&']]) (((name :: rest).length : Nat) + 1)
             reg := polled.reg
             sig := Nat.iterate catchSIGTSTP env.signals s.sig
             out := s.out ++ polled.printed ++ [": "] }
    name _ hname hext hne hex
  obtain ⟨input3, hr⟩ := reset_command_total
    (setArgs { s.input with command_line := body ++ ['\n'] }
      ((name :: rest).map some ++ [none]) ((name :: rest).length : Nat))
    (by
      show (((name :: rest).length : Nat) : Int) ≤ MAX_ARGS
      omega)
  have hround : prompt_round env s = some (Round.next
      { input := input3
        last_status := (-5 : Int).tdiv 256
        last_cmd := 1
        reg := { background_PIDS :=
                   Function.update polled.reg.background_PIDS polled.reg.num_background_proc
                     env.fork
                 num_background_proc := polled.reg.num_background_proc + 1 }
        sig := Nat.iterate catchSIGTSTP env.signals s.sig
        out := s.out ++ polled.printed ++ [": "]
          ++ ["background process pid is " ++ toString env.fork ++ "\n"] }) := by
    rw [hline] at hnodollar
    unfold prompt_round
    rw [hc]
    simp only [hline, hnodollar, Option.isSome_none, Bool.false_eq_true, if_false]
    rw [hpop]
    simp only []
    rw [hd]
    simp only [hr]
  refine ⟨polled, _, hc, hround, rfl, rfl, rfl, by simp, by simp, ?_⟩
  intro env2 hline2 hroom2
  obtain ⟨polled2, input4, hc2, hr2⟩ := prompt_round_status env2 _
    (reset_command_num_args _ _ hr) hroom2 hline2
  refine ⟨polled2, _, hc2, hr2, ?_⟩
  have hst : status_execute ((-5 : Int).tdiv 256) 1 = ["exit value 0\n"] := by decide
  simp only [hst, List.append_assoc, List.singleton_append]

/-- Witness of `background_launch_stores_zero`: the line `sleep 5 &` as the
first line. -/
theorem background_launch_stores_zero_witness :
    ∃ polled s2,
      check_background_processes (quietEnv "sleep 5 &\n".toList).nohang
        (initialShell (fun _ => 0)).reg = some polled ∧
      prompt_round (quietEnv "sleep 5 &\n".toList) (initialShell (fun _ => 0))
        = some (Round.next s2) ∧
      s2.last_status = 0 ∧ s2.last_cmd = 1 ∧
      s2.reg.num_background_proc = polled.reg.num_background_proc + 1 ∧
      s2.reg.background_PIDS polled.reg.num_background_proc
        = (quietEnv "sleep 5 &\n".toList).fork ∧
      s2.out = (initialShell (fun _ => 0)).out ++ polled.printed
        ++ [": ", "background process pid is "
              ++ toString (quietEnv "sleep 5 &\n".toList).fork ++ "\n"] ∧
      (∀ env2 : Env, env2.line = "status\n".toList →
        s2.reg.num_background_proc < MAX_BACKGROUND →
        ∃ polled2 s3, check_background_processes env2.nohang s2.reg = some polled2 ∧
          prompt_round env2 s2 = some (Round.next s3) ∧
          s3.out = s2.out ++ polled2.printed ++ [": ", "exit value 0\n"]) :=
  background_launch_stores_zero (quietEnv "sleep 5 &\n".toList) (initialShell (fun _ => 0))
    "sleep 5 &".toList "sleep".toList ["5".toList] rfl (by decide) rfl (by decide) (by decide)
    (by decide) (by decide) (by decide) (by decide) (by decide)

/-- Claim C10, evaluation at the failing input. A foreground command that
exits with code 1 leaves the stored status 1; the background launch
`sleep 5 &` that follows stores 0, the value `background_command` returns from
its never assigned `childExitStatus` (-5, divided by 256), and the `status`
query after it prints `exit value 0`, not the outcome of the last foreground
command. -/
theorem background_launch_overwrites_status :
    ((prompt [failingEnv "false\n".toList] (initialShell (fun _ => 0))).bind
        Round.state).map Shell.last_status = some 1 ∧
    ((prompt [failingEnv "false\n".toList, quietEnv "sleep 5 &\n".toList]
        (initialShell (fun _ => 0))).bind Round.state).map Shell.last_status = some 0 ∧
    ((prompt [failingEnv "false\n".toList, quietEnv "sleep 5 &\n".toList,
        quietEnv "status\n".toList] (initialShell (fun _ => 0))).bind Round.state).map Shell.out
      = some [": ", ": ", "background process pid is 4000\n", ": ", "exit value 0\n"] :=
  ⟨by decide, by decide, by decide⟩

/-! ### Facts about the entries the registry poll keeps -/

theorem shiftDown_spec : ∀ (rounds : Nat) (j : Int) (pids : Int → Int),
    0 ≤ j → j + rounds < MAX_BACKGROUND →
    shiftDown rounds j pids
      = some (fun x => if j ≤ x ∧ x < j + rounds then pids (x + 1) else pids x)
  | 0, j, pids, _, _ => by
    unfold shiftDown
    congr 1
    funext x
    rw [if_neg (by push_cast; omega)]
  | rounds + 1, j, pids, hj, hb => by
    push_cast at hb
    unfold shiftDown
    rw [if_pos ⟨hj, by omega⟩, shiftDown_spec rounds (j + 1) _ (by omega) (by omega)]
    congr 1
    funext x
    push_cast
    by_cases hx : x = j
    · subst hx
      rw [if_neg (by omega), Function.update_same, if_pos ⟨le_refl _, by omega⟩]
    · by_cases hr : j + 1 ≤ x ∧ x < j + 1 + rounds
      · rw [if_pos hr, if_pos ⟨by omega, by omega⟩, Function.update_noteq (by omega)]
      · rw [if_neg hr, if_neg (by omega), Function.update_noteq hx]

theorem sweep_cons_none (nohang : Int → Option Int) (a : Int) (rest : List Int)
    (h : nohang a = none) :
    sweep nohang (a :: rest)
      = (a :: (sweep nohang rest).1, (a, none) :: (sweep nohang rest).2) := by
  cases rest with
  | nil => simp [sweep, h]
  | cons b rest2 => simp [sweep, h]

theorem sweep_cons_some_nil (nohang : Int → Option Int) (a status : Int)
    (h : nohang a = some status) :
    sweep nohang [a] = ([], [(a, some status)]) := by
  simp [sweep, h]

theorem sweep_cons_some_cons (nohang : Int → Option Int) (a b status : Int) (rest : List Int)
    (h : nohang a = some status) :
    sweep nohang (a :: b :: rest)
      = (b :: (sweep nohang rest).1, (a, some status) :: (sweep nohang rest).2) := by
  simp [sweep, h]

/-- The array after the entry at index `pre.length` was removed by the shift
holds the entries before it and the entries behind it. -/
theorem shifted_holds (pids : Int → Int) (pre rest : List Int) (a : Int)
    (hrep : ∀ k : Nat, k < (pre ++ a :: rest).length →
      (pre ++ a :: rest)[k]? = some (pids (k : Int))) :
    ∀ k : Nat, k < (pre ++ rest).length →
      (pre ++ rest)[k]? = some
        ((fun x : Int => if (pre.length : Int) ≤ x ∧ x < (pre.length : Int) + ((rest.length + 1 : Nat) : Int)
            then pids (x + 1) else pids x) (k : Int)) := by
  intro k hk
  simp only [List.length_append] at hk
  by_cases hlt : k < pre.length
  · have h1 := hrep k (by simp; omega)
    rw [List.getElem?_append_left hlt] at h1 ⊢
    simp only []
    rw [if_neg (by omega)]
    exact h1
  · have h1 := hrep (k + 1) (by simp; omega)
    rw [List.getElem?_append_right (by omega)] at h1 ⊢
    have hidx : k + 1 - pre.length = (k - pre.length) + 1 := by omega
    rw [hidx, List.getElem?_cons_succ] at h1
    simp only []
    rw [if_pos ⟨by omega, by push_cast; omega⟩, h1]
    push_cast
    rfl

/-- The loop of `check_background_processes` from index `pre.length` on, when
the array holds the list `pre ++ suf`: it returns, the array then holds `pre`
followed by the entries `sweep` keeps of `suf`, and the waits made are those of
`sweep`. -/
theorem checkLoop_sweep (nohang : Int → Option Int) :
    ∀ (fuel : Nat) (suf pre : List Int) (p : Polled),
      p.reg.num_background_proc = ((pre ++ suf).length : Int) →
      (∀ k : Nat, k < (pre ++ suf).length →
        (pre ++ suf)[k]? = some (p.reg.background_PIDS (k : Int))) →
      p.reg.num_background_proc < MAX_BACKGROUND → suf.length < fuel →
      ∃ p2, checkLoop nohang fuel (pre.length : Int) p = some p2 ∧
        p2.reg.num_background_proc = ((pre ++ (sweep nohang suf).1).length : Int) ∧
        (∀ k : Nat, k < (pre ++ (sweep nohang suf).1).length →
          (pre ++ (sweep nohang suf).1)[k]? = some (p2.reg.background_PIDS (k : Int))) ∧
        p2.waits = p.waits ++ (sweep nohang suf).2
  | 0, _, _, _, _, _, _, hf => by omega
  | fuel + 1, [], pre, p, hnum, hrep, _, _ => by
    refine ⟨p, ?_, by simpa [sweep] using hnum, by simpa [sweep] using hrep, by simp [sweep]⟩
    unfold checkLoop
    rw [if_neg (by rw [hnum]; simp)]
  | fuel + 1, a :: rest, pre, p, hnum, hrep, hroom, hf => by
    have hlen : ((pre ++ a :: rest).length : Int) = (pre.length : Int) + rest.length + 1 := by
      simp only [List.length_append, List.length_cons]
      push_cast
      omega
    rw [hlen] at hnum
    have hM : MAX_BACKGROUND = 30 := rfl
    have hpid : p.reg.background_PIDS (pre.length : Int) = a := by
      have := hrep pre.length (by simp)
      rw [List.getElem?_append_right (le_refl _)] at this
      simpa using this.symm
    unfold checkLoop
    rw [if_pos (by omega), if_pos ⟨by omega, by omega⟩]
    simp only [hpid]
    cases hw : nohang a with
    | none =>
      simp only []
      obtain ⟨p2, hp2, hn2, hr2, hw2⟩ := checkLoop_sweep nohang fuel rest (pre ++ [a])
        { p with waits := p.waits ++ [(a, none)] }
        (by simp only [List.append_assoc, List.singleton_append]; rw [hlen]; exact hnum)
        (by simpa only [List.append_assoc, List.singleton_append] using hrep)
        hroom (by simp at hf; omega)
      refine ⟨p2, ?_, ?_, ?_, ?_⟩
      · rw [← hp2]
        congr 1
        simp
      · rw [sweep_cons_none nohang a rest hw]
        simpa only [List.append_assoc, List.singleton_append] using hn2
      · rw [sweep_cons_none nohang a rest hw]
        simpa only [List.append_assoc, List.singleton_append] using hr2
      · rw [sweep_cons_none nohang a rest hw, hw2]
        simp
    | some status =>
      simp only []
      have hrounds : (p.reg.num_background_proc - (pre.length : Int)).toNat = rest.length + 1 := by
        omega
      rw [hrounds, shiftDown_spec (rest.length + 1) pre.length p.reg.background_PIDS
        (by omega) (by push_cast; omega)]
      simp only []
      have hshift := shifted_holds p.reg.background_PIDS pre rest a hrep
      cases rest with
      | nil =>
        cases fuel with
        | zero => simp at hf
        | succ fuel2 =>
          simp only [List.length_nil, Nat.cast_zero, add_zero] at hnum
          refine ⟨{ reg := { background_PIDS := fun x =>
                               if (pre.length : Int) ≤ x
                                  ∧ x < (pre.length : Int) + ((([] : List Int).length + 1 : Nat) : Int)
                               then p.reg.background_PIDS (x + 1) else p.reg.background_PIDS x
                             num_background_proc := p.reg.num_background_proc - 1 }
                    printed := p.printed ++ [backgroundReport a status]
                    waits := p.waits ++ [(a, some status)] }, ?_, ?_, ?_, ?_⟩
          · unfold checkLoop
            rw [if_neg (by simp only []; omega)]
          · simp only [sweep_cons_some_nil nohang a status hw, List.append_nil]
            omega
          · simp only [sweep_cons_some_nil nohang a status hw]
            exact hshift
          · simp only [sweep_cons_some_nil nohang a status hw]
      | cons b rest2 =>
        obtain ⟨p2, hp2, hn2, hr2, hw2⟩ := checkLoop_sweep nohang fuel rest2 (pre ++ [b])
          { reg := { background_PIDS := fun x =>
                       if (pre.length : Int) ≤ x
                          ∧ x < (pre.length : Int) + (((b :: rest2).length + 1 : Nat) : Int)
                       then p.reg.background_PIDS (x + 1) else p.reg.background_PIDS x
                     num_background_proc := p.reg.num_background_proc - 1 }
            printed := p.printed ++ [backgroundReport a status]
            waits := p.waits ++ [(a, some status)] }
          (by
            simp only [List.length_append, List.length_cons, List.length_nil] at hnum ⊢
            push_cast at hnum ⊢
            omega)
          (by simpa only [List.append_assoc, List.singleton_append] using hshift)
          (by simp only []; omega) (by simp at hf; omega)
        refine ⟨p2, ?_, ?_, ?_, ?_⟩
        · rw [← hp2]
          congr 1
          simp
        · rw [sweep_cons_some_cons nohang a b status rest2 hw]
          simpa only [List.append_assoc, List.singleton_append] using hn2
        · rw [sweep_cons_some_cons nohang a b status rest2 hw]
          simpa only [List.append_assoc, List.singleton_append] using hr2
        · rw [sweep_cons_some_cons nohang a b status rest2 hw, hw2]
          simp

theorem sweep_sublist (nohang : Int → Option Int) :
    ∀ l : List Int, (sweep nohang l).1.Sublist l
  | [] => by simp [sweep]
  | [a] => by
    cases hw : nohang a with
    | none => simp [sweep, hw]
    | some status => simp [sweep, hw]
  | a :: b :: rest => by
    cases hw : nohang a with
    | none =>
      rw [sweep_cons_none nohang a _ hw]
      exact (sweep_sublist nohang (b :: rest)).cons₂ a
    | some status =>
      rw [sweep_cons_some_cons nohang a b status rest hw]
      exact ((sweep_sublist nohang rest).cons₂ b).cons a

theorem sweep_perm (nohang : Int → Option Int) :
    ∀ l : List Int,
      l.Perm ((sweep nohang l).1 ++ (reaped (sweep nohang l).2).map Prod.fst)
  | [] => by simp [sweep, reaped]
  | [a] => by
    cases hw : nohang a with
    | none => simp [sweep, hw, reaped]
    | some status => simp [sweep, hw, reaped]
  | a :: b :: rest => by
    cases hw : nohang a with
    | none =>
      rw [sweep_cons_none nohang a _ hw]
      have ih := sweep_perm nohang (b :: rest)
      have hr : reaped ((a, none) :: (sweep nohang (b :: rest)).2)
          = reaped (sweep nohang (b :: rest)).2 := by simp [reaped]
      simp only [hr, List.cons_append]
      exact ih.cons a
    | some status =>
      rw [sweep_cons_some_cons nohang a b status rest hw]
      have ih := sweep_perm nohang rest
      have hr : reaped ((a, some status) :: (sweep nohang rest).2)
          = (a, status) :: reaped (sweep nohang rest).2 := by simp [reaped]
      simp only [hr, List.cons_append, List.map_cons]
      have h1 : (b :: ((sweep nohang rest).1
          ++ a :: (reaped (sweep nohang rest).2).map Prod.fst)).Perm
          (b :: a :: ((sweep nohang rest).1 ++ (reaped (sweep nohang rest).2).map Prod.fst)) :=
        List.Perm.cons b List.perm_middle
      have h2 : (a :: b :: rest).Perm
          (b :: a :: ((sweep nohang rest).1 ++ (reaped (sweep nohang rest).2).map Prod.fst)) :=
        (List.Perm.swap b a rest).trans ((ih.cons a).cons b)
      exact h2.trans h1.symm

theorem tracked_holds (reg : Registry) (h0 : 0 ≤ reg.num_background_proc) :
    reg.num_background_proc = (reg.tracked.length : Int) ∧
      ∀ k : Nat, k < reg.tracked.length →
        reg.tracked[k]? = some (reg.background_PIDS (k : Int)) := by
  have hlen : reg.tracked.length = reg.num_background_proc.toNat := by
    simp [Registry.tracked]
  refine ⟨by rw [hlen]; omega, ?_⟩
  intro k hk
  rw [hlen] at hk
  unfold Registry.tracked
  rw [List.getElem?_map, List.getElem?_range hk]
  rfl

theorem tracked_of_holds (reg : Registry) (l : List Int)
    (hnum : reg.num_background_proc = (l.length : Int))
    (hrep : ∀ k : Nat, k < l.length → l[k]? = some (reg.background_PIDS (k : Int))) :
    reg.tracked = l := by
  apply List.ext_getElem?
  intro k
  unfold Registry.tracked
  rw [hnum, Int.toNat_ofNat, List.getElem?_map]
  by_cases hk : k < l.length
  · rw [List.getElem?_range hk, hrep k hk]
    rfl
  · rw [List.getElem?_eq_none (by simp; omega), List.getElem?_eq_none (by omega)]
    rfl

/-- One call of `check_background_processes` on a registry with room, read on
the lists of tracked pids. -/
theorem check_background_processes_sweep (nohang : Int → Option Int) (reg : Registry)
    (h0 : 0 ≤ reg.num_background_proc) (hroom : reg.num_background_proc < MAX_BACKGROUND) :
    ∃ r, check_background_processes nohang reg = some r ∧
      r.reg.tracked = (sweep nohang reg.tracked).1 ∧
      r.waits = (sweep nohang reg.tracked).2 ∧
      r.reg.num_background_proc = (r.reg.tracked.length : Int) := by
  obtain ⟨hnum, hrep⟩ := tracked_holds reg h0
  obtain ⟨r, hr, hn2, hr2, hw2⟩ := checkLoop_sweep nohang (reg.num_background_proc.toNat + 1)
    reg.tracked [] { reg := reg, printed := [], waits := [] }
    (by simpa using hnum) (by simpa using hrep) hroom
    (by
      have : reg.tracked.length = reg.num_background_proc.toNat := by simp [Registry.tracked]
      omega)
  simp only [List.nil_append, List.length_nil, Nat.cast_zero] at hr hn2 hr2 hw2
  have ht := tracked_of_holds r.reg _ hn2 hr2
  exact ⟨r, hr, ht, hw2, by rw [ht]; exact hn2⟩

theorem sweep_waits (nohang : Int → Option Int) :
    ∀ (l : List Int) (w : Int × Option Int), w ∈ (sweep nohang l).2 → nohang w.1 = w.2
  | [], w, h => by simp [sweep] at h
  | [a], w, h => by
    cases hw : nohang a with
    | none =>
      simp only [sweep, hw, List.mem_singleton] at h
      rw [h]
      exact hw
    | some status =>
      simp only [sweep, hw, List.mem_singleton] at h
      rw [h]
      exact hw
  | a :: b :: rest, w, h => by
    cases hw : nohang a with
    | none =>
      rw [sweep_cons_none nohang a _ hw] at h
      rcases List.mem_cons.mp h with h1 | h1
      · rw [h1]
        exact hw
      · exact sweep_waits nohang (b :: rest) w h1
    | some status =>
      rw [sweep_cons_some_cons nohang a b status rest hw] at h
      rcases List.mem_cons.mp h with h1 | h1
      · rw [h1]
        exact hw
      · exact sweep_waits nohang rest w h1

theorem sweep_keeps_unchanged (nohang : Int → Option Int) :
    ∀ l : List Int,
      (l.filter (fun pid => (nohang pid).isNone)).Sublist (sweep nohang l).1
  | [] => by simp [sweep]
  | [a] => by
    cases hw : nohang a with
    | none => simp [sweep, hw]
    | some status => simp [sweep, hw]
  | a :: b :: rest => by
    cases hw : nohang a with
    | none =>
      rw [sweep_cons_none nohang a _ hw, List.filter_cons_of_pos (by simp [hw])]
      exact (sweep_keeps_unchanged nohang (b :: rest)).cons₂ a
    | some status =>
      rw [sweep_cons_some_cons nohang a b status rest hw,
        List.filter_cons_of_neg (by simp [hw])]
      have ih := sweep_keeps_unchanged nohang rest
      cases hb : nohang b with
      | none =>
        rw [List.filter_cons_of_pos (by simp [hb])]
        exact ih.cons₂ b
      | some st2 =>
        rw [List.filter_cons_of_neg (by simp [hb])]
        exact ih.cons b

/-- Claim C13. For every registry of fewer than 30 pids and every outcome of
the non-blocking waits, `check_background_processes` returns, and afterwards:
the tracked pids are a subsequence of the previous ones, in unchanged order;
every pid whose child had not changed state is still tracked (all of them, in
order); the previous pids are the pids kept together with the pids whose wait
reported termination, so that every pid removed is one of these; and the count
is the number of entries kept. -/
theorem check_background_processes_keeps (nohang : Int → Option Int) (reg : Registry)
    (h0 : 0 ≤ reg.num_background_proc) (hroom : reg.num_background_proc < MAX_BACKGROUND) :
    ∃ r, check_background_processes nohang reg = some r ∧
      r.reg.tracked.Sublist reg.tracked ∧
      (∀ pid ∈ reg.tracked, nohang pid = none → pid ∈ r.reg.tracked) ∧
      (reg.tracked.filter (fun pid => (nohang pid).isNone)).Sublist r.reg.tracked ∧
      reg.tracked.Perm (r.reg.tracked ++ (reaped r.waits).map Prod.fst) ∧
      (∀ w ∈ reaped r.waits, nohang w.1 = some w.2) ∧
      r.reg.num_background_proc = (r.reg.tracked.length : Int) := by
  obtain ⟨r, hr, ht, hw, hn⟩ := check_background_processes_sweep nohang reg h0 hroom
  have hkeep := sweep_keeps_unchanged nohang reg.tracked
  refine ⟨r, hr, ?_, ?_, ?_, ?_, ?_, hn⟩
  · rw [ht]
    exact sweep_sublist nohang reg.tracked
  · intro pid hmem hnone
    rw [ht]
    apply hkeep.subset
    exact List.mem_filter.mpr ⟨hmem, by simp [hnone]⟩
  · rw [ht]
    exact hkeep
  · rw [ht, hw]
    exact sweep_perm nohang reg.tracked
  · intro w hmem
    rw [hw] at hmem
    unfold reaped at hmem
    obtain ⟨x, hx, hxw⟩ := List.mem_filterMap.mp hmem
    have h1 := sweep_waits nohang reg.tracked x hx
    cases hx2 : x.2 with
    | none => simp [hx2] at hxw
    | some status =>
      simp only [hx2, Option.map_some', Option.some.injEq] at hxw
      rw [← hxw]
      simp only []
      rw [h1, hx2]

/-- Witness of `check_background_processes_keeps`: the registry of the pids
101, 102 and 103 when only the child 101 has terminated. -/
theorem check_background_processes_keeps_witness :
    ∃ r, check_background_processes (fun pid => if pid = 101 then some 0 else none) threeJobs
          = some r ∧
      r.reg.tracked.Sublist threeJobs.tracked ∧
      (∀ pid ∈ threeJobs.tracked,
        (fun pid => if pid = 101 then some 0 else none : Int → Option Int) pid = none →
        pid ∈ r.reg.tracked) ∧
      (threeJobs.tracked.filter (fun pid =>
        ((fun pid => if pid = 101 then some 0 else none : Int → Option Int) pid).isNone)).Sublist
          r.reg.tracked ∧
      threeJobs.tracked.Perm (r.reg.tracked ++ (reaped r.waits).map Prod.fst) ∧
      (∀ w ∈ reaped r.waits,
        (fun pid => if pid = 101 then some 0 else none : Int → Option Int) w.1 = some w.2) ∧
      r.reg.num_background_proc = (r.reg.tracked.length : Int) :=
  check_background_processes_keeps (fun pid => if pid = 101 then some 0 else none) threeJobs
    (by decide) (by decide)

/-! ### Facts about the first argument and the reset of the structure -/

/-- Claim C11, evaluation at the failing input. In foreground-only mode (one
delivery of the stop signal) the line `&` is parsed to its single token, which
is then dropped as a trailing `&`: `populate_command` returns with
`num_args = 0` and `NULL` at index 0, and the round of `prompt` that reads this
line hands the `NULL` to `strcmp`, for which the C code has no defined
behaviour. -/
theorem populate_command_lone_ampersand :
    (populate_command (Nat.iterate catchSIGTSTP 1 initialSignalState).SIGTSTPcount
        (freshCommand "&\n".toList)).map (fun c => (c.num_args, c.args 0)) = some (0, none) ∧
    (prompt_round (stopSignalEnv "&\n".toList) (initialShell (fun _ => 0))).isNone = true :=
  ⟨by decide, by decide⟩

/-- Claim C12, evaluation at the failing input. The round that reads `cd & x`
goes through `cd_execute`, which clears slot 1 and decrements `num_args` to 2,
so the final `reset_command` clears the slots 0 and 1 only: afterwards
`num_args = 0` but slot 2 still holds `x`. When the next line is `ls -l`, the
parser fills the slots 0 and 1, and the child of `foreground_command` reaches
`execvp` with the argument vector `ls`, `-l`, `x`. -/
theorem cd_ampersand_leaves_argument :
    ((prompt [quietEnv "cd & x\n".toList] (initialShell (fun _ => 0))).bind Round.state).map
        (fun s => (s.input.num_args, s.input.args 0, s.input.args 1, s.input.args 2))
      = some (0, none, none, some "x".toList) ∧
    ((((prompt [quietEnv "cd & x\n".toList] (initialShell (fun _ => 0))).bind Round.state).bind
        (fun s => populate_command 0 { s.input with command_line := "ls -l\n".toList })).bind
        (fun c => foreground_child permissiveOS c)).map
        (fun o => match o with
          | ChildOutcome.exec st => execvpArgs st.input.args 512 0
          | ChildOutcome.exited _ _ => [])
      = some ["ls".toList, "-l".toList, "x".toList] :=
  ⟨by decide, by decide⟩

end Smallsh
